import Mathlib

/-!
Verification of the YPChess search engine (`src/engine.py`) against its
specification.  The chess Rules Engine (the `python-chess` library) is an
external collaborator; it is modelled abstractly by the `Game` structure,
following the contract stated in the spec (§6): positions and moves are
opaque values (here `Nat` labels), and the engine code only touches them
through the structure's fields.  Scores are rationals (`ℚ`); the search
window bounds `float("-inf")`/`float("inf")` are modelled by the order
completion `WithBot (WithTop ℚ)`.
-/

/-- Piece kinds of chess, mirroring `chess.PIECE_TYPES` of the Rules Engine. -/
inductive PieceKind where
  | pawn | knight | bishop | rook | queen | king
deriving DecidableEq, Repr

/-- Enumeration order of `ch.PIECE_TYPES` (PAWN=1 .. KING=6) used by the
`materialEvaluation` loop. -/
def PIECE_TYPES : List PieceKind :=
  [PieceKind.pawn, PieceKind.knight, PieceKind.bishop,
   PieceKind.rook, PieceKind.queen, PieceKind.king]

/-- Modelled from the spec: the Rules Engine contract (§6).  Positions and
moves are opaque `Nat` labels; `color`/`turn` are booleans as in
`python-chess` (`WHITE = True`).  `color` is the engine's fixed perspective
(`self.color`).  `isCheck p` models `board.is_check()` evaluated on position
`p`; `applyMove` is the position reached by a (legal) move, `zobristHash`
models `chess.polyglot.zobrist_hash`. -/
structure Game where
  legalMoves : Nat → List Nat
  applyMove : Nat → Nat → Nat
  turn : Nat → Bool
  color : Bool
  isCapture : Nat → Nat → Bool
  isCheck : Nat → Bool
  isGameOver : Nat → Bool
  fullmoveNumber : Nat → Nat
  pieceCount : Nat → PieceKind → Bool → Nat
  pieceAt : Nat → Nat → Option (PieceKind × Bool)
  zobristHash : Nat → Nat

/-- A `python-chess` board handle: the current position together with the
move stack that `push`/`pop` maintain. -/
structure Board where
  cur : Nat
  hist : List Nat
deriving DecidableEq, Repr

/-- Board mutation `board.push(move)`: apply the move and record the
previous position on the stack. -/
def Board.push (g : Game) (b : Board) (m : Nat) : Board :=
  ⟨g.applyMove b.cur m, b.cur :: b.hist⟩

/-- Board mutation `board.pop()`: restore the previous position from the
stack (on an empty stack `python-chess` raises; that branch is never
reached by the engine, which always pairs `pop` with a preceding `push`). -/
def Board.pop (b : Board) : Board :=
  match b.hist with
  | [] => b
  | p :: rest => ⟨p, rest⟩

/-- Transposition table `self.transposition_table`: a mapping from zobrist
hashes to scores.  A Python `dict` is modelled as an association list where
assignment conses a fresh binding in front (lookups see the newest
binding, which matches `dict` overwrite semantics observationally). -/
abbrev TT := List (Nat × ℚ)

/-- Lookup in the transposition table (`board_hash in self.transposition_table`
followed by `self.transposition_table[board_hash]`). -/
def ttLookup : TT → Nat → Option ℚ
  | [], _ => none
  | (k, v) :: tt, h => if h = k then some v else ttLookup tt h

/-- Extended scores: rationals together with `float("-inf")` (`⊥`) and
`float("inf")` (`⊤`), used for the alpha/beta window. -/
abbrev XS := WithBot (WithTop ℚ)

/-- Embedding of a finite score into the extended scores. -/
def qx (q : ℚ) : XS := ((q : WithTop ℚ) : XS)

/-- Per-type material values of `pieceValue` (`values.get(piece_type, 0)`;
the default 0 branch is unreachable since the match is total). -/
def pieceValue : PieceKind → ℚ
  | PieceKind.pawn => 1
  | PieceKind.rook => 21/4
  | PieceKind.bishop => 7/2
  | PieceKind.knight => 7/2
  | PieceKind.queen => 9
  | PieceKind.king => 0

/-- The body of `materialEvaluation`, made explicit in the perspective
color: iterate over `ch.PIECE_TYPES`, adding the perspective's piece count
times the piece value and subtracting the opponent's. -/
def materialEvaluationFor (g : Game) (c : Bool) (p : Nat) : ℚ :=
  PIECE_TYPES.foldl
    (fun score pt =>
      score + (g.pieceCount p pt c : ℚ) * pieceValue pt
        - (g.pieceCount p pt (!c) : ℚ) * pieceValue pt)
    0

/-- `materialEvaluation(board)`: material balance from `self.color`'s
perspective. -/
def materialEvaluation (g : Game) (p : Nat) : ℚ :=
  materialEvaluationFor g g.color p

/-- `mateOpportunity(board)`: `-1e9` / `+1e9` when the position has no
legal moves, depending on whose turn it is; `0` otherwise. -/
def mateOpportunity (g : Game) (p : Nat) : ℚ :=
  if g.legalMoves p = [] then
    if g.turn p = g.color then -1000000000 else 1000000000
  else 0

/-- Central-square weights of `center_control` (`piece_weights`). -/
def centerWeight : PieceKind → ℚ
  | PieceKind.pawn => 1/5
  | PieceKind.knight => 1/4
  | PieceKind.bishop => 1/4
  | PieceKind.rook => 3/20
  | PieceKind.queen => 3/10
  | PieceKind.king => 1/40

/-- The four central squares `[ch.D4, ch.D5, ch.E4, ch.E5]` in the Rules
Engine's square numbering (file + 8 * rank). -/
def centerSquares : List Nat := [27, 35, 28, 36]

/-- `center_control(board)`: signed central-occupation bonus. -/
def center_control (g : Game) (p : Nat) : ℚ :=
  centerSquares.foldl
    (fun score sq =>
      match g.pieceAt p sq with
      | none => score
      | some pc =>
          score + (if pc.2 = g.color then centerWeight pc.1 else -centerWeight pc.1))
    0

/-- `opening_book(board)`: before full move 10, the legal-move count times
`±1/30` depending on whose turn it is; `0.0` afterwards. -/
def opening_book (g : Game) (p : Nat) : ℚ :=
  if g.fullmoveNumber p < 10 then
    ((g.legalMoves p).length : ℚ) * (if g.turn p = g.color then 1/30 else -(1/30))
  else 0

/-- `evalFunct(board)`: the sum of the four evaluation terms. -/
def evalFunct (g : Game) (p : Nat) : ℚ :=
  materialEvaluation g p + mateOpportunity g p + opening_book g p + center_control g p

/-- The scoring pass of `orderMoves`: for each legal move, add 100 to its
`move_scores` entry if it is a capture, then speculatively `push` the move,
add 50 if the resulting position is in check, and `pop`.  The
`defaultdict(int)` is modelled as a total function with default 0; the
board is threaded to record the push/pop discipline. -/
def scoreLoop (g : Game) : List Nat → Board → (Nat → Int) → ((Nat → Int) × Board)
  | [], b, f => (f, b)
  | m :: ms, b, f =>
    let f1 : Nat → Int := fun x =>
      if x = m then f x + (if g.isCapture b.cur m then 100 else 0) else f x
    let b1 := Board.push g b m
    let f2 : Nat → Int := fun x =>
      if x = m then f1 x + (if g.isCheck b1.cur then 50 else 0) else f1 x
    let b2 := Board.pop b1
    scoreLoop g ms b2 f2

/-- `orderMoves(board)` acting on a board handle: build the score table,
then return the legal moves sorted by descending score.  Python's `sorted`
with `reverse=True` is a stable descending sort, realised here by
`List.insertionSort` with the reflexive "has at least as large a score"
relation (insertion sort is stable, and stable sorts of the same list under
the same total preorder coincide). -/
def orderMovesB (g : Game) (b : Board) : List Nat × Board :=
  let sl := scoreLoop g (g.legalMoves b.cur) b (fun _ => 0)
  (List.insertionSort (fun m₁ m₂ => sl.1 m₂ ≤ sl.1 m₁) (g.legalMoves b.cur), sl.2)

/-- `orderMoves` as a function of the position only. -/
def orderMoves (g : Game) (p : Nat) : List Nat :=
  (orderMovesB g ⟨p, []⟩).1

/-- The per-move score `orderMoves` assigns, stated directly: +100 for a
capture, +50 for giving check, additively. -/
def moveScore (g : Game) (p m : Nat) : Int :=
  (if g.isCapture p m then 100 else 0) + (if g.isCheck (g.applyMove p m) then 50 else 0)

/-- Initial running maximum `value = float("-99999")` of the maximizing
branch of `engine`. -/
def searchMaxInit : ℚ := -99999

/-- Initial running minimum `value = float("9999999999")` of the minimizing
branch of `engine`. -/
def searchMinInit : ℚ := 9999999999

/-- The maximizing move loop of `engine`: push the move, recurse (via
`rec`, the depth-decremented search), pop, take the running maximum, raise
alpha, and break out of the loop on `beta <= alpha`. -/
def loopMax (g : Game) (rec : Board → XS → XS → TT → ℚ × Board × TT) :
    List Nat → Board → ℚ → XS → XS → TT → ℚ × Board × TT
  | [], b, value, _, _, tt => (value, b, tt)
  | m :: ms, b, value, alpha, beta, tt =>
    let r := rec (Board.push g b m) alpha beta tt
    let b2 := Board.pop r.2.1
    let value1 := max value r.1
    let alpha1 := max alpha (qx value1)
    if beta ≤ alpha1 then (value1, b2, r.2.2)
    else loopMax g rec ms b2 value1 alpha1 beta r.2.2

/-- The minimizing move loop of `engine`: symmetric to `loopMax`, with the
running minimum and the beta bound. -/
def loopMin (g : Game) (rec : Board → XS → XS → TT → ℚ × Board × TT) :
    List Nat → Board → ℚ → XS → XS → TT → ℚ × Board × TT
  | [], b, value, _, _, tt => (value, b, tt)
  | m :: ms, b, value, alpha, beta, tt =>
    let r := rec (Board.push g b m) alpha beta tt
    let b2 := Board.pop r.2.1
    let value1 := min value r.1
    let beta1 := min beta (qx value1)
    if beta1 ≤ alpha then (value1, b2, r.2.2)
    else loopMin g rec ms b2 value1 alpha beta1 r.2.2

/-- `engine(board, alpha, beta, depth)`, the Search Core: at depth 0 or a
game-over position return `evalFunct`; otherwise consult the transposition
table under the position's zobrist hash, and on a miss run the maximizing
or minimizing move loop (depending on whose turn it is) over the ordered
moves, store the resulting value in the table, and return it.  The board
handle and the table are threaded explicitly; defined by `Nat.rec` on the
depth so that it evaluates by kernel reduction. -/
def engine (g : Game) (d : Nat) : Board → XS → XS → TT → ℚ × Board × TT :=
  Nat.rec (motive := fun _ => Board → XS → XS → TT → ℚ × Board × TT)
    (fun b _ _ tt => (evalFunct g b.cur, b, tt))
    (fun _ rec b alpha beta tt =>
      if g.isGameOver b.cur then (evalFunct g b.cur, b, tt)
      else
        let h := g.zobristHash b.cur
        match ttLookup tt h with
        | some v => (v, b, tt)
        | none =>
          let om := orderMovesB g b
          let res :=
            if g.turn b.cur = g.color then
              loopMax g rec om.1 om.2 searchMaxInit alpha beta tt
            else
              loopMin g rec om.1 om.2 searchMinInit alpha beta tt
          (res.1, res.2.1, (h, res.1) :: res.2.2))
    d

/-- `evaluateMove(board, move, alpha, beta)` of the Root Dispatcher: push
the root move on the worker's board copy, search at `maxDepth - 1`, pop,
and report the score (the shared transposition table is threaded). -/
def evaluateMove (g : Game) (maxDepth : Nat) (b : Board) (m : Nat) (tt : TT) : ℚ × TT :=
  let b1 := Board.push g b m
  let r := engine g (maxDepth - 1) b1 ⊥ ⊤ tt
  let _b2 := Board.pop r.2.1
  (r.1, r.2.2)

/-- The result-collection loop of `getBestMove`: keep the move whose score
strictly exceeds the best value seen so far (initially `float("-inf")`).
In the source the workers run concurrently and results arrive in
`as_completed` order; this sequential model processes them in submission
order (one resolution of that scheduler-dependent order). -/
def rootLoop (g : Game) (maxDepth : Nat) (p : Nat) :
    List Nat → Option Nat → XS → TT → Option Nat
  | [], best, _, _ => best
  | m :: ms, best, bestValue, tt =>
    let r := evaluateMove g maxDepth ⟨p, []⟩ m tt
    if bestValue < qx r.1 then rootLoop g maxDepth p ms (some m) (qx r.1) r.2
    else rootLoop g maxDepth p ms best bestValue r.2

/-- `getBestMove()` of the Root Dispatcher: enumerate the legal root moves,
evaluate each on a private copy of the board (`self.board.copy(stack=False)`,
hence the empty history), and return the best move — `None` when the loop
never runs or never improves on `float("-inf")`. -/
def getBestMove (g : Game) (p : Nat) (maxDepth : Nat) : Option Nat :=
  rootLoop g maxDepth p (g.legalMoves p) none ⊥ []

/-- The maximizing move loop of the Search Core with the transposition
table removed: identical control flow to `loopMax`, phrased on positions
(`cf m` is the recursive search of the child reached by `m`).  Used as an
intermediate between `engine` and the minimax reference. -/
def loopNCmax (cf : Nat → XS → XS → ℚ) : List Nat → ℚ → XS → XS → ℚ
  | [], value, _, _ => value
  | m :: ms, value, alpha, beta =>
    let r := cf m alpha beta
    let value1 := max value r
    let alpha1 := max alpha (qx value1)
    if beta ≤ alpha1 then value1 else loopNCmax cf ms value1 alpha1 beta

/-- The minimizing move loop with the transposition table removed. -/
def loopNCmin (cf : Nat → XS → XS → ℚ) : List Nat → ℚ → XS → XS → ℚ
  | [], value, _, _ => value
  | m :: ms, value, alpha, beta =>
    let r := cf m alpha beta
    let value1 := min value r
    let beta1 := min beta (qx value1)
    if beta1 ≤ alpha then value1 else loopNCmin cf ms value1 alpha beta1

/-- The Search Core with the transposition table removed: same base cases,
same move ordering, same alpha-beta loops as `engine`, but no caching.
`engine` coincides with it whenever no position hash recurs. -/
def engineNC (g : Game) (d : Nat) : Nat → XS → XS → ℚ :=
  Nat.rec (motive := fun _ => Nat → XS → XS → ℚ)
    (fun p _ _ => evalFunct g p)
    (fun _ rec p alpha beta =>
      if g.isGameOver p then evalFunct g p
      else if g.turn p = g.color then
        loopNCmax (fun m a b => rec (g.applyMove p m) a b)
          (orderMoves g p) searchMaxInit alpha beta
      else
        loopNCmin (fun m a b => rec (g.applyMove p m) a b)
          (orderMoves g p) searchMinInit alpha beta)
    d

/-- Modelled from the spec: the unpruned, uncached full minimax traversal
that the Search Core is claimed to refine — same base case (depth zero or
game over returns `evalFunct`), same turn-based maximizing/minimizing
branching, iterating the Rules Engine's legal moves.  The `[]` branch of a
non-game-over position is unreachable for well-formed games (`totalOn`). -/
def minimax (g : Game) (d : Nat) : Nat → ℚ :=
  Nat.rec (motive := fun _ => Nat → ℚ)
    (fun p => evalFunct g p)
    (fun _ rec p =>
      if g.isGameOver p then evalFunct g p
      else
        match g.legalMoves p with
        | [] => evalFunct g p
        | m :: ms =>
          if g.turn p = g.color then
            (ms.map (fun m2 => rec (g.applyMove p m2))).foldl max (rec (g.applyMove p m))
          else
            (ms.map (fun m2 => rec (g.applyMove p m2))).foldl min (rec (g.applyMove p m)))
    d

/-- All positions of the depth-`d` search tree below `p` (with
multiplicity): `p` itself, and for non-game-over positions with remaining
depth the trees below each legal successor. -/
def reach (g : Game) (d : Nat) : Nat → List Nat :=
  Nat.rec (motive := fun _ => Nat → List Nat)
    (fun p => [p])
    (fun _ rec p =>
      p :: (if g.isGameOver p then []
            else (g.legalMoves p).foldr (fun m acc => rec (g.applyMove p m) ++ acc) []))
    d

/-- Zobrist hashes of all positions of the depth-`d` search tree below `p`. -/
def reachHashes (g : Game) (d : Nat) (p : Nat) : List Nat :=
  (reach g d p).map g.zobristHash

/-- Concatenated subtree position lists of the successors of `p` by the
moves in `ms`. -/
def childReach (g : Game) (d : Nat) (p : Nat) (ms : List Nat) : List Nat :=
  ms.foldr (fun m acc => reach g d (g.applyMove p m) ++ acc) []

/-- Concatenated subtree hash lists of the successors of `p` by the moves
in `ms`. -/
def childHashes (g : Game) (d : Nat) (p : Nat) (ms : List Nat) : List Nat :=
  ms.foldr (fun m acc => reachHashes g d (g.applyMove p m) ++ acc) []

/-- The score table `orderMoves` builds, as a pure function of the
position: the result of the `scoreLoop` pass (whose push/pop pairs leave
the board unchanged). -/
def msFun (g : Game) (p : Nat) : List Nat → (Nat → Int) → (Nat → Int)
  | [], f => f
  | m :: ms, f =>
    let f1 : Nat → Int := fun x =>
      if x = m then f x + (if g.isCapture p m then 100 else 0) else f x
    let f2 : Nat → Int := fun x =>
      if x = m then f1 x + (if g.isCheck (g.applyMove p m) then 50 else 0) else f1 x
    msFun g p ms f2

/-- Every evaluation in the list of positions lies strictly between the
loop sentinels `-99999` and `9999999999` of the Search Core. -/
def evalsInRange (g : Game) (l : List Nat) : Prop :=
  ∀ q ∈ l, searchMaxInit < evalFunct g q ∧ evalFunct g q < searchMinInit

/-- Every non-game-over position in the list has at least one legal move
(true of real chess: no legal moves implies checkmate or stalemate, which
are game-over states). -/
def totalOn (g : Game) (l : List Nat) : Prop :=
  ∀ q ∈ l, g.isGameOver q = false → g.legalMoves q ≠ []

/-- Fail-soft alpha-beta node contract relating a search result `r` to the
true minimax value `F` for the window `(alpha, beta)`: a fail-low result is
an upper bound, a fail-high result is a lower bound, and a result inside
the window is exact. -/
def nodeKM (r F : ℚ) (alpha beta : XS) : Prop :=
  (qx r ≤ alpha → F ≤ r) ∧ (beta ≤ qx r → r ≤ F) ∧
  (alpha < qx r → qx r < beta → r = F)

/-- Concrete game exhibiting a transposition: position 2 is reachable from
the root 0 both directly (move 0) and through position 1 (move 1 then 0),
so at depth 3 the Search Core revisits position 2 with less remaining
depth and reuses the cached deeper value.  All nodes are maximizing; the
only nonzero evaluation is 5 pawns for the perspective at position 3. -/
def cgT : Game where
  legalMoves := fun p => if p = 0 then [0, 1] else [0]
  applyMove := fun p m =>
    if p = 0 then (if m = 0 then 2 else 1)
    else if p = 1 then 2
    else if p = 2 then 3
    else 4
  turn := fun _ => true
  color := true
  isCapture := fun _ _ => false
  isCheck := fun _ => false
  isGameOver := fun _ => false
  fullmoveNumber := fun _ => 20
  pieceCount := fun p pt c =>
    match pt, c with
    | PieceKind.pawn, true => if p = 3 then 5 else 0
    | _, _ => 0
  pieceAt := fun _ _ => none
  zobristHash := fun p => p

/-- Concrete game where the perspective is mated after the only move:
position 1 (to move: the perspective) has the single move 0 leading to
position 2, which has no legal moves with the perspective to move, so
`evalFunct` at position 2 is the mate sentinel `-1e9`. -/
def cgM : Game where
  legalMoves := fun p => if p = 1 then [0] else []
  applyMove := fun _ _ => 2
  turn := fun _ => true
  color := true
  isCapture := fun _ _ => false
  isCheck := fun _ => false
  isGameOver := fun p => p == 2
  fullmoveNumber := fun _ => 20
  pieceCount := fun _ _ _ => 0
  pieceAt := fun _ _ => none
  zobristHash := fun p => p

/-- Concrete game whose root has no legal moves at all. -/
def cg3 : Game where
  legalMoves := fun _ => []
  applyMove := fun p _ => p
  turn := fun _ => true
  color := true
  isCapture := fun _ _ => false
  isCheck := fun _ => false
  isGameOver := fun _ => true
  fullmoveNumber := fun _ => 1
  pieceCount := fun _ _ _ => 0
  pieceAt := fun _ _ => none
  zobristHash := fun p => p

/-- Concrete game with two terminal positions: position 0 has no legal
moves with the perspective to move (and nonzero material and center
terms), position 1 has no legal moves with the opponent to move, and
position 2 has a legal move.  The full-move counter is below 10, so the
opening term is live and must vanish through the zero move count. -/
def cg5 : Game where
  legalMoves := fun p => if p = 2 then [0] else []
  applyMove := fun _ _ => 2
  turn := fun p => p == 0
  color := true
  isCapture := fun _ _ => false
  isCheck := fun _ => false
  isGameOver := fun p => !(p == 2)
  fullmoveNumber := fun _ => 5
  pieceCount := fun p pt c =>
    match pt, c with
    | PieceKind.pawn, true => if p = 0 then 2 else 0
    | _, _ => 0
  pieceAt := fun p sq =>
    if p = 0 then (if sq = 27 then some (PieceKind.knight, true) else none) else none
  zobristHash := fun p => p

/-- Concrete game with four root moves: move 0 is a checking capture
(score 150), move 1 is quiet (0), move 2 a plain capture (100), move 3 a
plain check (50). -/
def cg8 : Game where
  legalMoves := fun p => if p = 0 then [0, 1, 2, 3] else []
  applyMove := fun p m => if p = 0 then m + 1 else p
  turn := fun _ => true
  color := true
  isCapture := fun p m => p == 0 && (m == 0 || m == 2)
  isCheck := fun q => q == 1 || q == 4
  isGameOver := fun p => !(p == 0)
  fullmoveNumber := fun _ => 20
  pieceCount := fun _ _ _ => 0
  pieceAt := fun _ _ => none
  zobristHash := fun p => p

/-- Concrete game with a single move at the root, used to exercise the
transposition-table warm/reuse behavior. -/
def cg9 : Game where
  legalMoves := fun p => if p = 0 then [0] else []
  applyMove := fun _ _ => 1
  turn := fun _ => true
  color := true
  isCapture := fun _ _ => false
  isCheck := fun _ => false
  isGameOver := fun _ => false
  fullmoveNumber := fun _ => 20
  pieceCount := fun _ _ _ => 0
  pieceAt := fun _ _ => none
  zobristHash := fun p => p

/-- Concrete transposition-free game tree (all five positions reachable to
depth 2 are distinct, with distinct hashes): root 0 branches to 1 and 2,
which lead to 3 and 4; position 3 holds one perspective pawn. -/
def cgW : Game where
  legalMoves := fun p => if p = 0 then [0, 1] else [0]
  applyMove := fun p m =>
    if p = 0 then (if m = 0 then 1 else 2)
    else if p = 1 then 3
    else if p = 2 then 4
    else p
  turn := fun _ => true
  color := true
  isCapture := fun _ _ => false
  isCheck := fun _ => false
  isGameOver := fun _ => false
  fullmoveNumber := fun _ => 20
  pieceCount := fun p pt c =>
    match pt, c with
    | PieceKind.pawn, true => if p = 3 then 1 else 0
    | _, _ => 0
  pieceAt := fun _ _ => none
  zobristHash := fun p => p

/-! ### Basic equations and frame lemmas -/

theorem Board.pop_push (g : Game) (b : Board) (m : Nat) :
    Board.pop (Board.push g b m) = b := rfl

theorem engine_zero (g : Game) (b : Board) (alpha beta : XS) (tt : TT) :
    engine g 0 b alpha beta tt = (evalFunct g b.cur, b, tt) := rfl

theorem engine_succ (g : Game) (d : Nat) (b : Board) (alpha beta : XS) (tt : TT) :
    engine g (d + 1) b alpha beta tt =
      if g.isGameOver b.cur then (evalFunct g b.cur, b, tt)
      else
        let h := g.zobristHash b.cur
        match ttLookup tt h with
        | some v => (v, b, tt)
        | none =>
          let om := orderMovesB g b
          let res :=
            if g.turn b.cur = g.color then
              loopMax g (engine g d) om.1 om.2 searchMaxInit alpha beta tt
            else
              loopMin g (engine g d) om.1 om.2 searchMinInit alpha beta tt
          (res.1, res.2.1, (h, res.1) :: res.2.2) := rfl

theorem engineNC_zero (g : Game) (p : Nat) (alpha beta : XS) :
    engineNC g 0 p alpha beta = evalFunct g p := rfl

theorem engineNC_succ (g : Game) (d : Nat) (p : Nat) (alpha beta : XS) :
    engineNC g (d + 1) p alpha beta =
      if g.isGameOver p then evalFunct g p
      else if g.turn p = g.color then
        loopNCmax (fun m a b => engineNC g d (g.applyMove p m) a b)
          (orderMoves g p) searchMaxInit alpha beta
      else
        loopNCmin (fun m a b => engineNC g d (g.applyMove p m) a b)
          (orderMoves g p) searchMinInit alpha beta := rfl

theorem minimax_zero (g : Game) (p : Nat) : minimax g 0 p = evalFunct g p := rfl

theorem minimax_succ (g : Game) (d : Nat) (p : Nat) :
    minimax g (d + 1) p =
      if g.isGameOver p then evalFunct g p
      else
        match g.legalMoves p with
        | [] => evalFunct g p
        | m :: ms =>
          if g.turn p = g.color then
            (ms.map (fun m2 => minimax g d (g.applyMove p m2))).foldl max
              (minimax g d (g.applyMove p m))
          else
            (ms.map (fun m2 => minimax g d (g.applyMove p m2))).foldl min
              (minimax g d (g.applyMove p m)) := rfl

theorem reach_zero (g : Game) (p : Nat) : reach g 0 p = [p] := rfl

theorem reach_succ (g : Game) (d : Nat) (p : Nat) :
    reach g (d + 1) p =
      p :: (if g.isGameOver p then [] else childReach g d p (g.legalMoves p)) := by
  unfold childReach
  rfl

theorem scoreLoop_spec (g : Game) :
    ∀ (ms : List Nat) (b : Board) (f : Nat → Int),
      scoreLoop g ms b f = (msFun g b.cur ms f, b) := by
  intro ms
  induction ms with
  | nil => intro b f; rfl
  | cons m ms ih => intro b f; exact ih b _

theorem orderMovesB_spec (g : Game) (b : Board) :
    orderMovesB g b = (orderMoves g b.cur, b) := by
  simp only [orderMovesB, orderMoves, scoreLoop_spec g]

theorem loopMax_board (g : Game) (rec : Board → XS → XS → TT → ℚ × Board × TT)
    (hrec : ∀ b alpha beta tt, (rec b alpha beta tt).2.1 = b) :
    ∀ (ms : List Nat) (b : Board) (v : ℚ) (alpha beta : XS) (tt : TT),
      (loopMax g rec ms b v alpha beta tt).2.1 = b := by
  intro ms
  induction ms with
  | nil => intro b v alpha beta tt; rfl
  | cons m ms ih =>
    intro b v alpha beta tt
    simp only [loopMax, hrec, Board.pop_push]
    split
    · rfl
    · exact ih b _ _ _ _

theorem loopMin_board (g : Game) (rec : Board → XS → XS → TT → ℚ × Board × TT)
    (hrec : ∀ b alpha beta tt, (rec b alpha beta tt).2.1 = b) :
    ∀ (ms : List Nat) (b : Board) (v : ℚ) (alpha beta : XS) (tt : TT),
      (loopMin g rec ms b v alpha beta tt).2.1 = b := by
  intro ms
  induction ms with
  | nil => intro b v alpha beta tt; rfl
  | cons m ms ih =>
    intro b v alpha beta tt
    simp only [loopMin, hrec, Board.pop_push]
    split
    · rfl
    · exact ih b _ _ _ _

theorem engine_board (g : Game) :
    ∀ (d : Nat) (b : Board) (alpha beta : XS) (tt : TT),
      (engine g d b alpha beta tt).2.1 = b := by
  intro d
  induction d with
  | zero => intro b alpha beta tt; rfl
  | succ d ih =>
    intro b alpha beta tt
    rw [engine_succ]
    split
    · rfl
    · cases hl : ttLookup tt (g.zobristHash b.cur) with
      | some v => simp only [hl]
      | none =>
        simp only [hl, orderMovesB_spec]
        split
        · exact loopMax_board g (engine g d) (fun b a bb t => ih b a bb t) _ _ _ _ _ _
        · exact loopMin_board g (engine g d) (fun b a bb t => ih b a bb t) _ _ _ _ _ _

/-! ### Claims about the evaluator, board restoration, and depth zero -/

/-- C4: a Search Core call at depth 0 returns exactly `evalFunct` of the
position, leaves the transposition table unchanged, and its value does not
depend on the table's contents (the table is neither read nor written). -/
theorem engine_depth_zero_eval :
    ∀ (g : Game) (b : Board) (alpha beta : XS) (tt tt' : TT),
      engine g 0 b alpha beta tt = (evalFunct g b.cur, b, tt) ∧
      (engine g 0 b alpha beta tt).1 = (engine g 0 b alpha beta tt').1 :=
  fun _ _ _ _ _ _ => ⟨rfl, rfl⟩

/-- C6: every Search Core call returns the board handle in exactly its
pre-call state (each push is matched by a pop on every exit path, the
beta-cutoff break included), and the Move Orderer's speculative
apply/undo pass likewise restores the board. -/
theorem engine_push_pop_symmetry :
    ∀ (g : Game) (d : Nat) (b : Board) (alpha beta : XS) (tt : TT),
      (engine g d b alpha beta tt).2.1 = b ∧ (orderMovesB g b).2 = b :=
  fun g d b alpha beta tt =>
    ⟨engine_board g d b alpha beta tt, by rw [orderMovesB_spec]⟩

theorem foldl_material_neg (g : Game) (p : Nat) (c : Bool) :
    ∀ (l : List PieceKind) (s : ℚ),
      l.foldl (fun score pt => score + (g.pieceCount p pt c : ℚ) * pieceValue pt
        - (g.pieceCount p pt (!c) : ℚ) * pieceValue pt) s
      = - l.foldl (fun score pt => score + (g.pieceCount p pt (!c) : ℚ) * pieceValue pt
        - (g.pieceCount p pt c : ℚ) * pieceValue pt) (-s) := by
  intro l
  induction l with
  | nil => intro s; simp
  | cons pt l ih =>
    intro s
    simp only [List.foldl_cons]
    have h : -(s + (g.pieceCount p pt c : ℚ) * pieceValue pt
        - (g.pieceCount p pt (!c) : ℚ) * pieceValue pt)
        = -s + (g.pieceCount p pt (!c) : ℚ) * pieceValue pt
          - (g.pieceCount p pt c : ℚ) * pieceValue pt := by ring
    rw [ih, h]

/-- C7: the material term is antisymmetric in the perspective color: the
material evaluation computed for color `c` is the negation of the one
computed for the opposite color. -/
theorem materialEvaluation_antisymmetric :
    ∀ (g : Game) (c : Bool) (p : Nat),
      materialEvaluationFor g c p = - materialEvaluationFor g (!c) p ∧
      materialEvaluation g p = - materialEvaluationFor g (!g.color) p := by
  have key : ∀ (g : Game) (c : Bool) (p : Nat),
      materialEvaluationFor g c p = - materialEvaluationFor g (!c) p := by
    intro g c p
    unfold materialEvaluationFor
    rw [foldl_material_neg]
    simp [Bool.not_not]
  exact fun g c p => ⟨key g c p, key g g.color p⟩

/-- C3: on a position with no legal moves, `getBestMove` silently returns
the absent value `None` (the result-collection loop never runs), rather
than failing with a distinguishable "no legal move" error as the spec
requires. -/
theorem getBestMove_no_legal_moves :
    getBestMove cg3 0 3 = none ∧ cg3.legalMoves 0 = [] := ⟨rfl, rfl⟩

/-- C5: on a position with no legal moves, `evalFunct` is exactly the mate
sentinel (`-1e9` for the perspective to move, `+1e9` otherwise) plus the
material and center-control terms, the opening term contributing exactly 0
through the zero legal-move count; and on any position with legal moves the
mate-opportunity term is exactly 0. -/
theorem evalFunct_no_legal_moves :
    ∀ (g : Game) (p : Nat),
      (g.legalMoves p = [] →
        opening_book g p = 0 ∧
        (g.turn p = g.color →
          evalFunct g p = -1000000000 + materialEvaluation g p + center_control g p) ∧
        (g.turn p ≠ g.color →
          evalFunct g p = 1000000000 + materialEvaluation g p + center_control g p)) ∧
      (g.legalMoves p ≠ [] → mateOpportunity g p = 0) := by
  intro g p
  constructor
  · intro h
    have hop : opening_book g p = 0 := by
      unfold opening_book
      rw [h]
      simp
    refine ⟨hop, ?_, ?_⟩
    · intro ht
      unfold evalFunct mateOpportunity
      rw [h, hop]
      simp only [if_pos rfl, if_pos ht, if_true]
      ring
    · intro ht
      unfold evalFunct mateOpportunity
      rw [h, hop]
      simp only [if_pos rfl, if_neg ht, if_true]
      ring
  · intro h
    unfold mateOpportunity
    rw [if_neg h]

/-- C5 witness: concrete terminal and non-terminal positions of `cg5`. -/
theorem evalFunct_no_legal_moves_witness :
    cg5.legalMoves 0 = [] ∧ cg5.turn 0 = cg5.color ∧
    evalFunct cg5 0 = -1000000000 + materialEvaluation cg5 0 + center_control cg5 0 ∧
    opening_book cg5 0 = 0 ∧
    cg5.legalMoves 2 ≠ [] ∧ mateOpportunity cg5 2 = 0 :=
  ⟨rfl, rfl,
    ((evalFunct_no_legal_moves cg5 0).1 rfl).2.1 rfl,
    ((evalFunct_no_legal_moves cg5 0).1 rfl).1,
    by decide,
    (evalFunct_no_legal_moves cg5 2).2 (by decide)⟩

/-! ### Move ordering: scores, sortedness, stability, permutation -/

theorem msFun_untouched (g : Game) (p : Nat) :
    ∀ (ms : List Nat) (f : Nat → Int) (x : Nat), x ∉ ms → msFun g p ms f x = f x := by
  intro ms
  induction ms with
  | nil => intro f x _; rfl
  | cons m ms ih =>
    intro f x hx
    have hxm : x ≠ m := fun h => hx (h ▸ List.mem_cons_self m ms)
    have hxms : x ∉ ms := fun h => hx (List.mem_cons_of_mem m h)
    show msFun g p ms _ x = f x
    rw [ih _ x hxms]
    simp [hxm]

theorem msFun_moveScore (g : Game) (p : Nat) :
    ∀ (ms : List Nat) (f : Nat → Int) (x : Nat), ms.Nodup → x ∈ ms →
      msFun g p ms f x = f x + moveScore g p x := by
  intro ms
  induction ms with
  | nil => intro f x _ hx; cases hx
  | cons m ms ih =>
    intro f x hnd hx
    have hmnd : m ∉ ms := (List.nodup_cons.mp hnd).1
    have hnd' : ms.Nodup := (List.nodup_cons.mp hnd).2
    rcases List.mem_cons.mp hx with hxm | hxms
    · subst hxm
      show msFun g p ms _ x = _
      rw [msFun_untouched g p ms _ x hmnd]
      simp [moveScore, add_assoc]
    · have hxm : x ≠ m := fun h => hmnd (h ▸ hxms)
      show msFun g p ms _ x = _
      rw [ih _ x hnd' hxms]
      simp [hxm]

theorem orderMoves_eq (g : Game) (p : Nat) :
    orderMoves g p =
      List.insertionSort
        (fun m₁ m₂ => msFun g p (g.legalMoves p) (fun _ => 0) m₂ ≤
          msFun g p (g.legalMoves p) (fun _ => 0) m₁)
        (g.legalMoves p) := by
  simp only [orderMoves, orderMovesB, scoreLoop_spec g]

theorem orderMoves_perm (g : Game) (p : Nat) :
    (orderMoves g p).Perm (g.legalMoves p) := by
  rw [orderMoves_eq]
  exact List.perm_insertionSort _ _

theorem filter_orderedInsert_key (key : Nat → Int) (s : Int) :
    ∀ (l : List Nat) (a : Nat),
      (List.orderedInsert (fun m₁ m₂ => key m₂ ≤ key m₁) a l).filter
          (fun x => key x == s) =
        if key a = s then a :: l.filter (fun x => key x == s)
        else l.filter (fun x => key x == s) := by
  intro l
  induction l with
  | nil =>
    intro a
    by_cases ha : key a = s <;>
      simp [List.orderedInsert, List.filter_cons, ha, beq_iff_eq]
  | cons b l ih =>
    intro a
    show (if key b ≤ key a then a :: b :: l
        else b :: List.orderedInsert _ a l).filter (fun x => key x == s) = _
    by_cases hr : key b ≤ key a
    · rw [if_pos hr]
      by_cases ha : key a = s <;> simp [List.filter_cons, ha, beq_iff_eq]
    · rw [if_neg hr]
      by_cases hb : key b = s
      · have ha : ¬ key a = s := by
          intro ha
          exact hr (le_of_eq (hb.trans ha.symm))
        simp [List.filter_cons, hb, ha, ih a, beq_iff_eq]
      · simp [List.filter_cons, hb, ih a, beq_iff_eq]

theorem filter_insertionSort_key (key : Nat → Int) (s : Int) :
    ∀ (l : List Nat),
      (List.insertionSort (fun m₁ m₂ => key m₂ ≤ key m₁) l).filter
          (fun x => key x == s) =
        l.filter (fun x => key x == s) := by
  intro l
  induction l with
  | nil => rfl
  | cons a l ih =>
    show (List.orderedInsert _ a (List.insertionSort _ l)).filter _ = _
    rw [filter_orderedInsert_key key s _ a, ih]
    by_cases ha : key a = s <;> simp [List.filter_cons, ha]

/-- C8: for duplicate-free legal-move enumerations, `orderMoves` returns
the legal moves sorted in descending order of the per-move score (+100 for
a capture, +50 for delivering check, additively); the sort is stable, in
the sense that the moves attaining any fixed score appear in exactly the
Rules Engine's enumeration order; and the output is a permutation of the
enumeration. -/
theorem orderMoves_sorted_stable :
    ∀ (g : Game) (p : Nat), (g.legalMoves p).Nodup →
      List.Pairwise (fun m₁ m₂ => moveScore g p m₂ ≤ moveScore g p m₁) (orderMoves g p) ∧
      (∀ s : Int, (orderMoves g p).filter (fun m => moveScore g p m == s) =
        (g.legalMoves p).filter (fun m => moveScore g p m == s)) ∧
      (orderMoves g p).Perm (g.legalMoves p) := by
  intro g p hnd
  have hkey : ∀ m ∈ g.legalMoves p,
      msFun g p (g.legalMoves p) (fun _ => 0) m = moveScore g p m := by
    intro m hm
    rw [msFun_moveScore g p _ _ m hnd hm, zero_add]
  have hmemo : ∀ m ∈ orderMoves g p, m ∈ g.legalMoves p := by
    intro m hm
    exact (orderMoves_perm g p).mem_iff.mp hm
  refine ⟨?_, ?_, orderMoves_perm g p⟩
  · have hs : List.Pairwise
        (fun m₁ m₂ => msFun g p (g.legalMoves p) (fun _ => 0) m₂ ≤
          msFun g p (g.legalMoves p) (fun _ => 0) m₁) (orderMoves g p) := by
      rw [orderMoves_eq]
      haveI hto : IsTotal Nat (fun m₁ m₂ =>
          msFun g p (g.legalMoves p) (fun _ => 0) m₂ ≤
            msFun g p (g.legalMoves p) (fun _ => 0) m₁) :=
        ⟨fun a b => le_total _ _⟩
      haveI htr : IsTrans Nat (fun m₁ m₂ =>
          msFun g p (g.legalMoves p) (fun _ => 0) m₂ ≤
            msFun g p (g.legalMoves p) (fun _ => 0) m₁) :=
        ⟨fun _ _ _ h1 h2 => le_trans h2 h1⟩
      exact List.sorted_insertionSort _ _
    exact hs.imp_of_mem (fun ha hb h => by
      rw [hkey _ (hmemo _ ha), hkey _ (hmemo _ hb)] at h
      exact h)
  · intro s
    have h1 : (orderMoves g p).filter (fun m => moveScore g p m == s) =
        (orderMoves g p).filter
          (fun m => msFun g p (g.legalMoves p) (fun _ => 0) m == s) :=
      (List.filter_congr (fun m hm => by rw [hkey m (hmemo m hm)])).symm
    have h2 : (g.legalMoves p).filter (fun m => moveScore g p m == s) =
        (g.legalMoves p).filter
          (fun m => msFun g p (g.legalMoves p) (fun _ => 0) m == s) :=
      (List.filter_congr (fun m hm => by rw [hkey m hm])).symm
    rw [h1, h2, orderMoves_eq]
    exact filter_insertionSort_key _ s _

/-- C8 witness: the four-move game `cg8` (checking capture, quiet move,
capture, check) has a duplicate-free enumeration, and the theorem applies. -/
theorem orderMoves_sorted_stable_witness :
    (cg8.legalMoves 0).Nodup ∧
    List.Pairwise (fun m₁ m₂ => moveScore cg8 0 m₂ ≤ moveScore cg8 0 m₁)
      (orderMoves cg8 0) ∧
    (orderMoves cg8 0).Perm (cg8.legalMoves 0) :=
  ⟨by decide, (orderMoves_sorted_stable cg8 0 (by decide)).1,
    (orderMoves_sorted_stable cg8 0 (by decide)).2.2⟩

/-- C10: the sequence `orderMoves` returns is a permutation of the Rules
Engine's legal-move enumeration: each move occurs in it exactly as often
as in the enumeration (once, for duplicate-free enumerations), and no
other move occurs. -/
theorem orderMoves_is_permutation :
    ∀ (g : Game) (p : Nat),
      (orderMoves g p).Perm (g.legalMoves p) ∧
      ∀ m : Nat, (orderMoves g p).count m = (g.legalMoves p).count m :=
  fun g p => ⟨orderMoves_perm g p, fun m => (orderMoves_perm g p).count_eq m⟩

/-! ### Transposition table behavior -/

theorem engine_stores (g : Game) (d : Nat) (b : Board) (alpha beta : XS) (tt : TT)
    (h : g.isGameOver b.cur = false) :
    ttLookup (engine g (d + 1) b alpha beta tt).2.2 (g.zobristHash b.cur)
      = some (engine g (d + 1) b alpha beta tt).1 := by
  rw [engine_succ]
  simp only [h, Bool.false_eq_true, if_false]
  cases hl : ttLookup tt (g.zobristHash b.cur) with
  | some v => simp [hl]
  | none => simp [hl, ttLookup]

theorem engine_cached (g : Game) (d : Nat) (b : Board) (alpha beta : XS) (tt : TT)
    (v : ℚ) (h : g.isGameOver b.cur = false)
    (hl : ttLookup tt (g.zobristHash b.cur) = some v) :
    engine g (d + 1) b alpha beta tt = (v, b, tt) := by
  rw [engine_succ]
  simp only [h, Bool.false_eq_true, if_false, hl]

/-- C9: for depth at least 1 on a non-game-over position, the first Search
Core call leaves the position's hash bound to its returned value in the
transposition table, and a second call on the unchanged position at the
same depth (under any window) returns exactly that cached value, leaving
board and table unchanged. -/
theorem engine_transposition_idempotent :
    ∀ (g : Game) (d : Nat) (b : Board) (alpha beta alpha' beta' : XS) (tt : TT),
      1 ≤ d → g.isGameOver b.cur = false →
      ttLookup (engine g d b alpha beta tt).2.2 (g.zobristHash b.cur)
          = some (engine g d b alpha beta tt).1 ∧
      engine g d b alpha' beta' (engine g d b alpha beta tt).2.2
        = ((engine g d b alpha beta tt).1, b, (engine g d b alpha beta tt).2.2) := by
  intro g d b alpha beta alpha' beta' tt hd hgo
  cases d with
  | zero => cases hd
  | succ d =>
    refine ⟨engine_stores g d b alpha beta tt hgo, ?_⟩
    exact engine_cached g d b alpha' beta' _ _ hgo (engine_stores g d b alpha beta tt hgo)

/-- C9 witness: the one-move game `cg9` at depth 1. -/
theorem engine_transposition_idempotent_witness :
    (1 ≤ 1 ∧ cg9.isGameOver 0 = false) ∧
    engine cg9 1 ⟨0, []⟩ ⊥ ⊤ (engine cg9 1 ⟨0, []⟩ ⊥ ⊤ []).2.2
      = ((engine cg9 1 ⟨0, []⟩ ⊥ ⊤ []).1, ⟨0, []⟩,
          (engine cg9 1 ⟨0, []⟩ ⊥ ⊤ []).2.2) :=
  ⟨⟨Nat.le_refl 1, rfl⟩,
    (engine_transposition_idempotent cg9 1 ⟨0, []⟩ ⊥ ⊤ ⊥ ⊤ []
      (Nat.le_refl 1) rfl).2⟩

/-! ### The maximizing-branch sentinel versus the mate evaluation -/

/-- C2 (refuted): the initial running maximum `-99999` of a maximizing node
is NOT strictly less than every value `evalFunct` can return: in `cgM`,
position 2 (perspective mated) evaluates to the sentinel `-1e9`, which lies
below `-99999`; consequently the Search Core at position 1 (whose only
continuation is that mate) returns `-99999` where the minimax value of the
same tree is `-1e9`. -/
theorem searchMaxInit_not_below_mate_eval :
    evalFunct cgM 2 = -1000000000 ∧
    ¬ (searchMaxInit < evalFunct cgM 2) ∧
    (engine cgM 1 ⟨1, []⟩ ⊥ ⊤ []).1 = searchMaxInit ∧
    minimax cgM 1 1 = -1000000000 := by
  have heval : evalFunct cgM 2 = -1000000000 := by
    norm_num [evalFunct, materialEvaluation, materialEvaluationFor, PIECE_TYPES,
      mateOpportunity, opening_book, center_control, centerSquares, cgM, pieceValue]
  refine ⟨heval, ?_, ?_, ?_⟩
  · rw [heval]
    norm_num [searchMaxInit]
  · rw [engine_succ]
    have h1 : cgM.isGameOver (Board.mk 1 []).cur = false := rfl
    have h2 : orderMovesB cgM ⟨1, []⟩ = ([0], ⟨1, []⟩) := rfl
    have h3 : cgM.turn (Board.mk 1 []).cur = cgM.color := rfl
    have h4 : Board.push cgM ⟨1, []⟩ 0 = ⟨2, [1]⟩ := rfl
    have h5 : ¬ ((⊤ : XS) ≤ max ⊥ (qx (max searchMaxInit (-1000000000)))) := by
      rw [max_eq_right bot_le]
      simp [qx]
    simp only [h1, Bool.false_eq_true, if_false, ttLookup, h2, h3, if_pos rfl,
      loopMax, h4, engine_zero, heval, h5, if_true, eq_self_iff_true]
    exact max_eq_left (by norm_num [searchMaxInit])
  · rw [minimax_succ]
    norm_num [evalFunct, materialEvaluation, materialEvaluationFor, PIECE_TYPES,
      mateOpportunity, opening_book, center_control, centerSquares, cgM, pieceValue,
      minimax_zero]

/-! ### Alpha-beta with cache versus minimax: counterexample -/

/-- C1 (refuted as stated): with a full window and an initially empty
transposition table, the Search Core does NOT always return the unpruned
minimax value.  Two failure modes: in `cgT`, position 2 is reached both
directly from the root and through position 1, so its value cached at
remaining depth 2 is reused at remaining depth 1, giving 0 although the
minimax value of the depth-3 tree is 5; and in `cgM` the maximizing loop's
initial running maximum `-99999` exceeds the mate evaluation `-1e9`, giving
`-99999` although the depth-1 minimax value is `-1e9`. -/
theorem alphabeta_with_cache_counterexample :
    (engine cgT 3 ⟨0, []⟩ ⊥ ⊤ []).1 = 0 ∧ minimax cgT 3 0 = 5 ∧
    (engine cgT 3 ⟨0, []⟩ ⊥ ⊤ []).1 ≠ minimax cgT 3 0 ∧
    (engine cgM 1 ⟨1, []⟩ ⊥ ⊤ []).1 = searchMaxInit ∧
    minimax cgM 1 1 = -1000000000 ∧
    (engine cgM 1 ⟨1, []⟩ ⊥ ⊤ []).1 ≠ minimax cgM 1 1 := by
  have hev4 : evalFunct cgT 4 = 0 := by
    norm_num [evalFunct, materialEvaluation, materialEvaluationFor, PIECE_TYPES,
      mateOpportunity, opening_book, center_control, centerSquares, cgT, pieceValue]
  have hev3 : evalFunct cgT 3 = 5 := by
    norm_num [evalFunct, materialEvaluation, materialEvaluationFor, PIECE_TYPES,
      mateOpportunity, opening_book, center_control, centerSquares, cgT, pieceValue]
  have hn1 : max searchMaxInit (0 : ℚ) = 0 := by decide
  have hn2 : max (⊥ : XS) (qx 0) = qx 0 := by decide
  have hT : (engine cgT 3 ⟨0, []⟩ ⊥ ⊤ []).1 = 0 := by
    have e40 : engine cgT 0 ⟨4, [3, 2, 0]⟩ ⊥ ⊤ [] = (0, ⟨4, [3, 2, 0]⟩, []) := by
      rw [engine_zero]; rw [show (Board.mk 4 [3, 2, 0]).cur = 4 from rfl, hev4]
    have e31 : engine cgT 1 ⟨3, [2, 0]⟩ ⊥ ⊤ [] = (0, ⟨3, [2, 0]⟩, [(3, 0)]) := by
      rw [engine_succ]
      simp only [show orderMovesB cgT ⟨3, [2, 0]⟩ = ([0], ⟨3, [2, 0]⟩) from rfl,
        loopMax, show Board.push cgT ⟨3, [2, 0]⟩ 0 = ⟨4, [3, 2, 0]⟩ from rfl, e40]
      decide
    have e22 : engine cgT 2 ⟨2, [0]⟩ ⊥ ⊤ [] = (0, ⟨2, [0]⟩, [(2, 0), (3, 0)]) := by
      rw [engine_succ]
      simp only [show orderMovesB cgT ⟨2, [0]⟩ = ([0], ⟨2, [0]⟩) from rfl,
        loopMax, show Board.push cgT ⟨2, [0]⟩ 0 = ⟨3, [2, 0]⟩ from rfl, e31]
      decide
    have ec : engine cgT 1 ⟨2, [1, 0]⟩ (qx 0) ⊤ [(2, 0), (3, 0)]
        = (0, ⟨2, [1, 0]⟩, [(2, 0), (3, 0)]) := by decide
    have e12 : engine cgT 2 ⟨1, [0]⟩ (qx 0) ⊤ [(2, 0), (3, 0)]
        = (0, ⟨1, [0]⟩, [(1, 0), (2, 0), (3, 0)]) := by
      rw [engine_succ]
      simp only [show orderMovesB cgT ⟨1, [0]⟩ = ([0], ⟨1, [0]⟩) from rfl,
        loopMax, show Board.push cgT ⟨1, [0]⟩ 0 = ⟨2, [1, 0]⟩ from rfl, ec, hn1, hn2]
      decide
    rw [engine_succ]
    simp only [show orderMovesB cgT ⟨0, []⟩ = ([0, 1], ⟨0, []⟩) from rfl,
      loopMax, show Board.push cgT ⟨0, []⟩ 0 = ⟨2, [0]⟩ from rfl, e22,
      show Board.pop ⟨2, [0]⟩ = ⟨0, []⟩ from rfl, hn1, hn2,
      show Board.push cgT ⟨0, []⟩ 1 = ⟨1, [0]⟩ from rfl, e12]
    decide
  have hM : minimax cgT 3 0 = 5 := by
    have hm13 : minimax cgT 1 3 = 0 := by
      rw [minimax_succ]
      simp only [show cgT.legalMoves 3 = [0] from rfl,
        show cgT.applyMove 3 0 = 4 from rfl, minimax_zero, hev4, List.map, List.foldl]
      decide
    have hm12 : minimax cgT 1 2 = 5 := by
      rw [minimax_succ]
      simp only [show cgT.legalMoves 2 = [0] from rfl,
        show cgT.applyMove 2 0 = 3 from rfl, minimax_zero, hev3, List.map, List.foldl]
      decide
    have hm22 : minimax cgT 2 2 = 0 := by
      rw [minimax_succ]
      simp only [show cgT.legalMoves 2 = [0] from rfl,
        show cgT.applyMove 2 0 = 3 from rfl, hm13, List.map, List.foldl]
      decide
    have hm21 : minimax cgT 2 1 = 5 := by
      rw [minimax_succ]
      simp only [show cgT.legalMoves 1 = [0] from rfl,
        show cgT.applyMove 1 0 = 2 from rfl, hm12, List.map, List.foldl]
      decide
    rw [minimax_succ]
    simp only [show cgT.legalMoves 0 = [0, 1] from rfl,
      show cgT.applyMove 0 0 = 2 from rfl, show cgT.applyMove 0 1 = 1 from rfl,
      hm22, hm21, List.map, List.foldl]
    decide
  have hevM : evalFunct cgM 2 = -1000000000 := by
    norm_num [evalFunct, materialEvaluation, materialEvaluationFor, PIECE_TYPES,
      mateOpportunity, opening_book, center_control, centerSquares, cgM, pieceValue]
  have hMT : (engine cgM 1 ⟨1, []⟩ ⊥ ⊤ []).1 = searchMaxInit := by
    rw [engine_succ]
    have h1 : cgM.isGameOver (Board.mk 1 []).cur = false := rfl
    have h3 : cgM.turn (Board.mk 1 []).cur = cgM.color := rfl
    have h5 : ¬ ((⊤ : XS) ≤ max ⊥ (qx (max searchMaxInit (-1000000000)))) := by
      rw [max_eq_right bot_le]
      simp [qx]
    simp only [h1, Bool.false_eq_true, if_false, ttLookup,
      show orderMovesB cgM ⟨1, []⟩ = ([0], ⟨1, []⟩) from rfl, h3, if_pos rfl,
      loopMax, show Board.push cgM ⟨1, []⟩ 0 = ⟨2, [1]⟩ from rfl, engine_zero,
      hevM, h5, if_true, eq_self_iff_true]
    exact max_eq_left (by norm_num [searchMaxInit])
  have hMm : minimax cgM 1 1 = -1000000000 := by
    rw [minimax_succ]
    simp only [show cgM.legalMoves 1 = [0] from rfl,
      show cgM.applyMove 1 0 = 2 from rfl, minimax_zero, hevM, List.map, List.foldl]
    decide
  refine ⟨hT, hM, ?_, hMT, hMm, ?_⟩
  · rw [hT, hM]; decide
  · rw [hMT, hMm]; decide

/-! ### Cache irrelevance: the Search Core on hash-distinct trees -/

theorem ttLookup_eq_none (h : Nat) :
    ∀ (tt : TT), h ∉ tt.map Prod.fst → ttLookup tt h = none := by
  intro tt
  induction tt with
  | nil => intro _; rfl
  | cons kv tt ih =>
    obtain ⟨k, v⟩ := kv
    intro hna
    simp only [List.map_cons, List.mem_cons, not_or] at hna
    simp [ttLookup, hna.1, ih hna.2]

theorem childHashes_cons (g : Game) (d : Nat) (p m : Nat) (ms : List Nat) :
    childHashes g d p (m :: ms) =
      reachHashes g d (g.applyMove p m) ++ childHashes g d p ms := rfl

theorem childReach_cons (g : Game) (d : Nat) (p m : Nat) (ms : List Nat) :
    childReach g d p (m :: ms) =
      reach g d (g.applyMove p m) ++ childReach g d p ms := rfl

theorem childReach_map_hashes (g : Game) (d : Nat) (p : Nat) :
    ∀ (ms : List Nat),
      (childReach g d p ms).map g.zobristHash = childHashes g d p ms := by
  intro ms
  induction ms with
  | nil => rfl
  | cons m ms ih =>
    rw [childReach_cons, childHashes_cons, List.map_append, ih, reachHashes]

theorem reachHashes_succ_false (g : Game) (d : Nat) (p : Nat)
    (hgo : g.isGameOver p = false) :
    reachHashes g (d + 1) p =
      g.zobristHash p :: childHashes g d p (g.legalMoves p) := by
  rw [reachHashes, reach_succ, hgo]
  simp only [Bool.false_eq_true, if_false, List.map_cons, childReach_map_hashes]

theorem childHashes_perm (g : Game) (d : Nat) (p : Nat) :
    ∀ {ms₁ ms₂ : List Nat}, ms₁.Perm ms₂ →
      (childHashes g d p ms₁).Perm (childHashes g d p ms₂) := by
  intro ms₁ ms₂ h
  induction h with
  | nil => exact List.Perm.nil
  | cons x h ih =>
    rw [childHashes_cons, childHashes_cons]
    exact List.Perm.append_left _ ih
  | swap x y l =>
    rw [childHashes_cons, childHashes_cons, childHashes_cons, childHashes_cons,
      ← List.append_assoc, ← List.append_assoc]
    exact List.Perm.append_right _ List.perm_append_comm
  | trans h₁ h₂ ih₁ ih₂ => exact ih₁.trans ih₂

theorem loopMax_eq_NC (g : Game) (d : Nat) (p : Nat)
    (IH : ∀ (p' : Nat) (hs' : List Nat) (alpha beta : XS) (tt : TT),
      (reachHashes g d p').Nodup →
      List.Disjoint (reachHashes g d p') (tt.map Prod.fst) →
      (engine g d ⟨p', hs'⟩ alpha beta tt).1 = engineNC g d p' alpha beta ∧
      (engine g d ⟨p', hs'⟩ alpha beta tt).2.2.map Prod.fst ⊆
        reachHashes g d p' ++ tt.map Prod.fst) :
    ∀ (ms : List Nat) (hs : List Nat) (v : ℚ) (alpha beta : XS) (tt : TT),
      (childHashes g d p ms).Nodup →
      List.Disjoint (childHashes g d p ms) (tt.map Prod.fst) →
      (loopMax g (engine g d) ms ⟨p, hs⟩ v alpha beta tt).1
          = loopNCmax (fun m a b => engineNC g d (g.applyMove p m) a b) ms v alpha beta ∧
      (loopMax g (engine g d) ms ⟨p, hs⟩ v alpha beta tt).2.2.map Prod.fst ⊆
        childHashes g d p ms ++ tt.map Prod.fst := by
  intro ms
  induction ms with
  | nil =>
    intro hs v alpha beta tt _ _
    exact ⟨rfl, fun a ha => List.mem_append_right _ ha⟩
  | cons m ms ih =>
    intro hs v alpha beta tt hnd hdisj
    rw [childHashes_cons] at hnd hdisj
    have h2 : (childHashes g d p ms).Nodup := (List.nodup_append.mp hnd).2.1
    have h3 : (reachHashes g d (g.applyMove p m)).Disjoint (childHashes g d p ms) :=
      (List.nodup_append.mp hnd).2.2
    have hd1 : (reachHashes g d (g.applyMove p m)).Disjoint (tt.map Prod.fst) :=
      (List.disjoint_append_left.mp hdisj).1
    have hd2 : (childHashes g d p ms).Disjoint (tt.map Prod.fst) :=
      (List.disjoint_append_left.mp hdisj).2
    have hpush : Board.push g ⟨p, hs⟩ m = ⟨g.applyMove p m, p :: hs⟩ := rfl
    have hchild := IH (g.applyMove p m) (p :: hs) alpha beta tt
      (List.nodup_append.mp hnd).1 hd1
    have hboard : (engine g d ⟨g.applyMove p m, p :: hs⟩ alpha beta tt).2.1
        = ⟨g.applyMove p m, p :: hs⟩ := engine_board g d _ _ _ _
    have hpop : Board.pop ⟨g.applyMove p m, p :: hs⟩ = ⟨p, hs⟩ := rfl
    simp only [loopMax, loopNCmax, hpush, hchild.1, hboard, hpop]
    by_cases hcut : beta ≤ max alpha (qx (max v (engineNC g d (g.applyMove p m) alpha beta)))
    · simp only [if_pos hcut]
      refine ⟨by trivial, ?_⟩
      intro a ha
      rcases List.mem_append.mp (hchild.2 ha) with h | h
      · exact List.mem_append_left _ (List.mem_append_left _ h)
      · exact List.mem_append_right _ h
    · simp only [if_neg hcut]
      have hd2' : (childHashes g d p ms).Disjoint
          ((engine g d ⟨g.applyMove p m, p :: hs⟩ alpha beta tt).2.2.map Prod.fst) := by
        intro a haCH haK
        rcases List.mem_append.mp (hchild.2 haK) with h | h
        · exact h3.symm haCH h
        · exact hd2 haCH h
      have hrec := ih hs (max v (engineNC g d (g.applyMove p m) alpha beta))
        (max alpha (qx (max v (engineNC g d (g.applyMove p m) alpha beta)))) beta
        ((engine g d ⟨g.applyMove p m, p :: hs⟩ alpha beta tt).2.2) h2 hd2'
      refine ⟨hrec.1, ?_⟩
      intro a ha
      rcases List.mem_append.mp (hrec.2 ha) with h | h
      · exact List.mem_append_left _ (List.mem_append_right _ h)
      · rcases List.mem_append.mp (hchild.2 h) with h' | h'
        · exact List.mem_append_left _ (List.mem_append_left _ h')
        · exact List.mem_append_right _ h'

theorem loopMin_eq_NC (g : Game) (d : Nat) (p : Nat)
    (IH : ∀ (p' : Nat) (hs' : List Nat) (alpha beta : XS) (tt : TT),
      (reachHashes g d p').Nodup →
      List.Disjoint (reachHashes g d p') (tt.map Prod.fst) →
      (engine g d ⟨p', hs'⟩ alpha beta tt).1 = engineNC g d p' alpha beta ∧
      (engine g d ⟨p', hs'⟩ alpha beta tt).2.2.map Prod.fst ⊆
        reachHashes g d p' ++ tt.map Prod.fst) :
    ∀ (ms : List Nat) (hs : List Nat) (v : ℚ) (alpha beta : XS) (tt : TT),
      (childHashes g d p ms).Nodup →
      List.Disjoint (childHashes g d p ms) (tt.map Prod.fst) →
      (loopMin g (engine g d) ms ⟨p, hs⟩ v alpha beta tt).1
          = loopNCmin (fun m a b => engineNC g d (g.applyMove p m) a b) ms v alpha beta ∧
      (loopMin g (engine g d) ms ⟨p, hs⟩ v alpha beta tt).2.2.map Prod.fst ⊆
        childHashes g d p ms ++ tt.map Prod.fst := by
  intro ms
  induction ms with
  | nil =>
    intro hs v alpha beta tt _ _
    exact ⟨rfl, fun a ha => List.mem_append_right _ ha⟩
  | cons m ms ih =>
    intro hs v alpha beta tt hnd hdisj
    rw [childHashes_cons] at hnd hdisj
    have h2 : (childHashes g d p ms).Nodup := (List.nodup_append.mp hnd).2.1
    have h3 : (reachHashes g d (g.applyMove p m)).Disjoint (childHashes g d p ms) :=
      (List.nodup_append.mp hnd).2.2
    have hd1 : (reachHashes g d (g.applyMove p m)).Disjoint (tt.map Prod.fst) :=
      (List.disjoint_append_left.mp hdisj).1
    have hd2 : (childHashes g d p ms).Disjoint (tt.map Prod.fst) :=
      (List.disjoint_append_left.mp hdisj).2
    have hpush : Board.push g ⟨p, hs⟩ m = ⟨g.applyMove p m, p :: hs⟩ := rfl
    have hchild := IH (g.applyMove p m) (p :: hs) alpha beta tt
      (List.nodup_append.mp hnd).1 hd1
    have hboard : (engine g d ⟨g.applyMove p m, p :: hs⟩ alpha beta tt).2.1
        = ⟨g.applyMove p m, p :: hs⟩ := engine_board g d _ _ _ _
    have hpop : Board.pop ⟨g.applyMove p m, p :: hs⟩ = ⟨p, hs⟩ := rfl
    simp only [loopMin, loopNCmin, hpush, hchild.1, hboard, hpop]
    by_cases hcut : min beta (qx (min v (engineNC g d (g.applyMove p m) alpha beta))) ≤ alpha
    · simp only [if_pos hcut]
      refine ⟨by trivial, ?_⟩
      intro a ha
      rcases List.mem_append.mp (hchild.2 ha) with h | h
      · exact List.mem_append_left _ (List.mem_append_left _ h)
      · exact List.mem_append_right _ h
    · simp only [if_neg hcut]
      have hd2' : (childHashes g d p ms).Disjoint
          ((engine g d ⟨g.applyMove p m, p :: hs⟩ alpha beta tt).2.2.map Prod.fst) := by
        intro a haCH haK
        rcases List.mem_append.mp (hchild.2 haK) with h | h
        · exact h3.symm haCH h
        · exact hd2 haCH h
      have hrec := ih hs (min v (engineNC g d (g.applyMove p m) alpha beta))
        alpha (min beta (qx (min v (engineNC g d (g.applyMove p m) alpha beta))))
        ((engine g d ⟨g.applyMove p m, p :: hs⟩ alpha beta tt).2.2) h2 hd2'
      refine ⟨hrec.1, ?_⟩
      intro a ha
      rcases List.mem_append.mp (hrec.2 ha) with h | h
      · exact List.mem_append_left _ (List.mem_append_right _ h)
      · rcases List.mem_append.mp (hchild.2 h) with h' | h'
        · exact List.mem_append_left _ (List.mem_append_left _ h')
        · exact List.mem_append_right _ h'

theorem engine_eq_engineNC (g : Game) :
    ∀ (d : Nat) (p : Nat) (hs : List Nat) (alpha beta : XS) (tt : TT),
      (reachHashes g d p).Nodup →
      List.Disjoint (reachHashes g d p) (tt.map Prod.fst) →
      (engine g d ⟨p, hs⟩ alpha beta tt).1 = engineNC g d p alpha beta ∧
      (engine g d ⟨p, hs⟩ alpha beta tt).2.2.map Prod.fst ⊆
        reachHashes g d p ++ tt.map Prod.fst := by
  intro d
  induction d with
  | zero =>
    intro p hs alpha beta tt _ _
    exact ⟨rfl, fun a ha => List.mem_append_right _ ha⟩
  | succ d ih =>
    intro p hs alpha beta tt hnd hdisj
    rw [engine_succ, engineNC_succ]
    have hcur : (Board.mk p hs).cur = p := rfl
    cases hgo : g.isGameOver p with
    | true =>
      simp only [hcur, hgo, if_true]
      exact ⟨by trivial, fun a ha => List.mem_append_right _ ha⟩
    | false =>
      have hRH := reachHashes_succ_false g d p hgo
      rw [hRH] at hnd hdisj
      rw [hRH]
      have hh1 : g.zobristHash p ∉ childHashes g d p (g.legalMoves p) :=
        (List.nodup_cons.mp hnd).1
      have hh2 : (childHashes g d p (g.legalMoves p)).Nodup :=
        (List.nodup_cons.mp hnd).2
      have hht : g.zobristHash p ∉ tt.map Prod.fst := fun h =>
        hdisj (List.mem_cons_self _ _) h
      have hhd : (childHashes g d p (g.legalMoves p)).Disjoint (tt.map Prod.fst) :=
        fun a ha hb => hdisj (List.mem_cons_of_mem _ ha) hb
      have hlook : ttLookup tt (g.zobristHash p) = none := ttLookup_eq_none _ tt hht
      -- transfer Nodup/Disjoint along the move-ordering permutation
      have hperm : (childHashes g d p (orderMoves g p)).Perm
          (childHashes g d p (g.legalMoves p)) :=
        childHashes_perm g d p (orderMoves_perm g p)
      have hnd' : (childHashes g d p (orderMoves g p)).Nodup :=
        hperm.nodup_iff.mpr hh2
      have hhd' : (childHashes g d p (orderMoves g p)).Disjoint (tt.map Prod.fst) :=
        fun a ha hb => hhd (hperm.mem_iff.mp ha) hb
      simp only [hcur, hgo, Bool.false_eq_true, if_false, hlook, orderMovesB_spec]
      cases hturn : decide (g.turn p = g.color) with
      | true =>
        have ht : g.turn p = g.color := of_decide_eq_true hturn
        simp only [ht, if_pos rfl]
        have hloop := loopMax_eq_NC g d p (fun p' hs' a b t => ih p' hs' a b t)
          (orderMoves g p) hs searchMaxInit alpha beta tt hnd' hhd'
        refine ⟨hloop.1, ?_⟩
        intro a ha
        rcases List.mem_cons.mp ha with h | h
        · exact List.mem_append_left _ (h ▸ List.mem_cons_self _ _)
        · rcases List.mem_append.mp (hloop.2 h) with h' | h'
          · exact List.mem_append_left _
              (List.mem_cons_of_mem _ (hperm.mem_iff.mp h'))
          · exact List.mem_append_right _ h'
      | false =>
        have ht : ¬ (g.turn p = g.color) := of_decide_eq_false hturn
        simp only [ht, if_neg ht]
        have hloop := loopMin_eq_NC g d p (fun p' hs' a b t => ih p' hs' a b t)
          (orderMoves g p) hs searchMinInit alpha beta tt hnd' hhd'
        refine ⟨hloop.1, ?_⟩
        intro a ha
        rcases List.mem_cons.mp ha with h | h
        · exact List.mem_append_left _ (h ▸ List.mem_cons_self _ _)
        · rcases List.mem_append.mp (hloop.2 h) with h' | h'
          · exact List.mem_append_left _
              (List.mem_cons_of_mem _ (hperm.mem_iff.mp h'))
          · exact List.mem_append_right _ h'

/-! ### Order and fold lemmas for the alpha-beta correctness argument -/

theorem qx_le_qx {a b : ℚ} : qx a ≤ qx b ↔ a ≤ b := by simp [qx]

theorem qx_lt_qx {a b : ℚ} : qx a < qx b ↔ a < b := by simp [qx]

theorem bot_lt_qx (a : ℚ) : (⊥ : XS) < qx a := by simp [qx]

theorem qx_lt_top (a : ℚ) : qx a < (⊤ : XS) := by
  rw [show (⊤ : XS) = ((⊤ : WithTop ℚ) : XS) from rfl]
  exact WithBot.coe_lt_coe.mpr (WithTop.coe_lt_top a)

theorem qx_max (a b : ℚ) : qx (max a b) = max (qx a) (qx b) := by
  rcases le_total a b with h | h
  · rw [max_eq_right h, max_eq_right (qx_le_qx.mpr h)]
  · rw [max_eq_left h, max_eq_left (qx_le_qx.mpr h)]

theorem qx_min (a b : ℚ) : qx (min a b) = min (qx a) (qx b) := by
  rcases le_total a b with h | h
  · rw [min_eq_left h, min_eq_left (qx_le_qx.mpr h)]
  · rw [min_eq_right h, min_eq_right (qx_le_qx.mpr h)]

theorem le_foldl_max : ∀ (l : List ℚ) (a : ℚ), a ≤ l.foldl max a := by
  intro l
  induction l with
  | nil => intro a; exact le_refl a
  | cons x l ih => intro a; exact le_trans (le_max_left a x) (ih (max a x))

theorem foldl_max_pull : ∀ (l : List ℚ) (a b : ℚ),
    l.foldl max (max a b) = max (l.foldl max a) b := by
  intro l
  induction l with
  | nil => intro a b; rfl
  | cons x l ih =>
    intro a b
    show l.foldl max (max (max a b) x) = _
    rw [sup_right_comm a b x, ih (max a x) b]
    rfl

theorem foldl_max_perm {l₁ l₂ : List ℚ} (h : l₁.Perm l₂) :
    ∀ a : ℚ, l₁.foldl max a = l₂.foldl max a := by
  induction h with
  | nil => intro a; rfl
  | cons x h ih => intro a; exact ih (max a x)
  | swap x y l =>
    intro a
    show l.foldl max (max (max a y) x) = l.foldl max (max (max a x) y)
    rw [sup_right_comm a y x]
  | trans h₁ h₂ ih₁ ih₂ => intro a; rw [ih₁ a, ih₂ a]

theorem foldl_max_mem : ∀ (l : List ℚ) (a : ℚ),
    l.foldl max a = a ∨ l.foldl max a ∈ l := by
  intro l
  induction l with
  | nil => intro a; exact Or.inl rfl
  | cons x l ih =>
    intro a
    rcases ih (max a x) with h | h
    · rcases max_choice a x with hc | hc
      · exact Or.inl (by rw [show (x :: l).foldl max a = l.foldl max (max a x) from rfl, h, hc])
      · exact Or.inr (by
          rw [show (x :: l).foldl max a = l.foldl max (max a x) from rfl, h, hc]
          exact List.mem_cons_self _ _)
    · exact Or.inr (List.mem_cons_of_mem _ h)

theorem foldl_min_le : ∀ (l : List ℚ) (a : ℚ), l.foldl min a ≤ a := by
  intro l
  induction l with
  | nil => intro a; exact le_refl a
  | cons x l ih => intro a; exact le_trans (ih (min a x)) (min_le_left a x)

theorem foldl_min_pull : ∀ (l : List ℚ) (a b : ℚ),
    l.foldl min (min a b) = min (l.foldl min a) b := by
  intro l
  induction l with
  | nil => intro a b; rfl
  | cons x l ih =>
    intro a b
    show l.foldl min (min (min a b) x) = _
    rw [inf_right_comm a b x, ih (min a x) b]
    rfl

theorem foldl_min_perm {l₁ l₂ : List ℚ} (h : l₁.Perm l₂) :
    ∀ a : ℚ, l₁.foldl min a = l₂.foldl min a := by
  induction h with
  | nil => intro a; rfl
  | cons x h ih => intro a; exact ih (min a x)
  | swap x y l =>
    intro a
    show l.foldl min (min (min a y) x) = l.foldl min (min (min a x) y)
    rw [inf_right_comm a y x]
  | trans h₁ h₂ ih₁ ih₂ => intro a; rw [ih₁ a, ih₂ a]

theorem foldl_min_mem : ∀ (l : List ℚ) (a : ℚ),
    l.foldl min a = a ∨ l.foldl min a ∈ l := by
  intro l
  induction l with
  | nil => intro a; exact Or.inl rfl
  | cons x l ih =>
    intro a
    rcases ih (min a x) with h | h
    · rcases min_choice a x with hc | hc
      · exact Or.inl (by rw [show (x :: l).foldl min a = l.foldl min (min a x) from rfl, h, hc])
      · exact Or.inr (by
          rw [show (x :: l).foldl min a = l.foldl min (min a x) from rfl, h, hc]
          exact List.mem_cons_self _ _)
    · exact Or.inr (List.mem_cons_of_mem _ h)

theorem mem_reach_self (g : Game) : ∀ (d p : Nat), p ∈ reach g d p := by
  intro d p
  cases d with
  | zero => rw [reach_zero]; exact List.mem_cons_self _ _
  | succ d => rw [reach_succ]; exact List.mem_cons_self _ _

theorem mem_childReach (g : Game) (d p : Nat) :
    ∀ {ms : List Nat} {m q : Nat}, m ∈ ms → q ∈ reach g d (g.applyMove p m) →
      q ∈ childReach g d p ms := by
  intro ms
  induction ms with
  | nil => intro m q hm; cases hm
  | cons m' ms ih =>
    intro m q hm hq
    rw [childReach_cons]
    rcases List.mem_cons.mp hm with h | h
    · exact List.mem_append_left _ (h ▸ hq)
    · exact List.mem_append_right _ (ih h hq)

theorem reach_child_subset (g : Game) (d : Nat) {p m : Nat}
    (hgo : g.isGameOver p = false) (hm : m ∈ g.legalMoves p) :
    reach g d (g.applyMove p m) ⊆ reach g (d + 1) p := by
  intro q hq
  rw [reach_succ, hgo]
  simp only [Bool.false_eq_true, if_false]
  exact List.mem_cons_of_mem _ (mem_childReach g d p hm hq)

theorem minimax_mem_reach (g : Game) :
    ∀ (d p : Nat), ∃ q ∈ reach g d p, minimax g d p = evalFunct g q := by
  intro d
  induction d with
  | zero => intro p; exact ⟨p, mem_reach_self g 0 p, by rw [minimax_zero]⟩
  | succ d ih =>
    intro p
    rw [minimax_succ]
    cases hgo : g.isGameOver p with
    | true => exact ⟨p, mem_reach_self g (d + 1) p, by simp [hgo]⟩
    | false =>
      cases hms : g.legalMoves p with
      | nil => exact ⟨p, mem_reach_self g (d + 1) p, by simp [hgo, hms]⟩
      | cons m ms =>
        simp only [hgo, Bool.false_eq_true, if_false]
        have hmhead : m ∈ g.legalMoves p := by rw [hms]; exact List.mem_cons_self _ _
        by_cases ht : g.turn p = g.color
        · simp only [ht, if_pos rfl, if_true, eq_self_iff_true]
          rcases foldl_max_mem
              (ms.map (fun m2 => minimax g d (g.applyMove p m2)))
              (minimax g d (g.applyMove p m)) with he | he
          · obtain ⟨q, hq, hq2⟩ := ih (g.applyMove p m)
            exact ⟨q, reach_child_subset g d hgo hmhead hq, by rw [he, hq2]⟩
          · obtain ⟨m2, hm2, heq⟩ := List.mem_map.mp he
            obtain ⟨q, hq, hq2⟩ := ih (g.applyMove p m2)
            have hm2' : m2 ∈ g.legalMoves p := by
              rw [hms]; exact List.mem_cons_of_mem _ hm2
            exact ⟨q, reach_child_subset g d hgo hm2' hq, by rw [← heq, hq2]⟩
        · simp only [ht, if_false]
          rcases foldl_min_mem
              (ms.map (fun m2 => minimax g d (g.applyMove p m2)))
              (minimax g d (g.applyMove p m)) with he | he
          · obtain ⟨q, hq, hq2⟩ := ih (g.applyMove p m)
            exact ⟨q, reach_child_subset g d hgo hmhead hq, by rw [he, hq2]⟩
          · obtain ⟨m2, hm2, heq⟩ := List.mem_map.mp he
            obtain ⟨q, hq, hq2⟩ := ih (g.applyMove p m2)
            have hm2' : m2 ∈ g.legalMoves p := by
              rw [hms]; exact List.mem_cons_of_mem _ hm2
            exact ⟨q, reach_child_subset g d hgo hm2' hq, by rw [← heq, hq2]⟩

theorem minimax_range (g : Game) (d p : Nat)
    (hr : evalsInRange g (reach g d p)) :
    searchMaxInit < minimax g d p ∧ minimax g d p < searchMinInit := by
  obtain ⟨q, hq, he⟩ := minimax_mem_reach g d p
  rw [he]
  exact hr q hq

theorem loopNCmax_KM (cf : Nat → XS → XS → ℚ) (v : Nat → ℚ) :
    ∀ (ms : List Nat),
      (∀ m ∈ ms, ∀ (a b : XS), a < b → nodeKM (cf m a b) (v m) a b) →
      ∀ (s : ℚ) (alpha beta : XS), alpha < beta →
        s ≤ loopNCmax cf ms s alpha beta ∧
        nodeKM (loopNCmax cf ms s alpha beta) ((ms.map v).foldl max s) alpha beta := by
  intro ms
  induction ms with
  | nil =>
    intro _ s alpha beta _
    exact ⟨le_refl s, fun _ => le_refl s, fun _ => le_refl s, fun _ _ => rfl⟩
  | cons m ms ih =>
    intro hch s alpha beta hab
    have hc := hch m (List.mem_cons_self m ms) alpha beta hab
    have hW : ((m :: ms).map v).foldl max s
        = max ((ms.map v).foldl max s) (v m) := by
      rw [show ((m :: ms).map v).foldl max s
        = (ms.map v).foldl max (max s (v m)) from rfl, foldl_max_pull]
    have hunfold : loopNCmax cf (m :: ms) s alpha beta =
        if beta ≤ max alpha (qx (max s (cf m alpha beta)))
        then max s (cf m alpha beta)
        else loopNCmax cf ms (max s (cf m alpha beta))
          (max alpha (qx (max s (cf m alpha beta)))) beta := rfl
    rw [hunfold, hW]
    by_cases hcut : beta ≤ max alpha (qx (max s (cf m alpha beta)))
    · rw [if_pos hcut]
      have hbv : beta ≤ qx (max s (cf m alpha beta)) := by
        rcases le_max_iff.mp hcut with h | h
        · exact absurd h (not_le.mpr hab)
        · exact h
      refine ⟨le_max_left _ _, ?_, ?_, ?_⟩
      · intro hra
        exact absurd (le_trans hbv hra) (not_le.mpr hab)
      · intro _
        rcases le_total (cf m alpha beta) s with h | h
        · rw [max_eq_left h]
          exact le_trans (le_foldl_max _ s) (le_max_left _ _)
        · rw [max_eq_right h]
          rw [max_eq_right h] at hbv
          exact le_trans (hc.2.1 hbv) (le_max_right _ _)
      · intro _ hrb
        exact absurd (lt_of_le_of_lt hbv hrb) (lt_irrefl beta)
    · rw [if_neg hcut]
      have ha1b : max alpha (qx (max s (cf m alpha beta))) < beta := not_le.mp hcut
      have hrec := ih (fun m' hm' a b h => hch m' (List.mem_cons_of_mem m hm') a b h)
        (max s (cf m alpha beta)) (max alpha (qx (max s (cf m alpha beta)))) beta ha1b
      obtain ⟨hA', hKM'⟩ := hrec
      rw [foldl_max_pull] at hKM'
      obtain ⟨hFL', hFH', hEX'⟩ := hKM'
      have hsr : s ≤ loopNCmax cf ms (max s (cf m alpha beta))
          (max alpha (qx (max s (cf m alpha beta)))) beta :=
        le_trans (le_max_left _ _) hA'
      have hr1r : cf m alpha beta ≤ loopNCmax cf ms (max s (cf m alpha beta))
          (max alpha (qx (max s (cf m alpha beta)))) beta :=
        le_trans (le_max_right _ _) hA'
      refine ⟨hsr, ?_, ?_, ?_⟩
      · -- fail low: the result is an upper bound on the true value
        intro hra
        have hra1 : qx (loopNCmax cf ms (max s (cf m alpha beta))
            (max alpha (qx (max s (cf m alpha beta)))) beta)
            ≤ max alpha (qx (max s (cf m alpha beta))) :=
          le_trans hra (le_max_left _ _)
        have hKr := hFL' hra1
        have hqr₁ : qx (cf m alpha beta) ≤ alpha :=
          le_trans (qx_le_qx.mpr hr1r) hra
        have hvm : v m ≤ loopNCmax cf ms (max s (cf m alpha beta))
            (max alpha (qx (max s (cf m alpha beta)))) beta :=
          le_trans (hc.1 hqr₁) hr1r
        exact max_le (le_trans (le_max_left _ _) hKr) hvm
      · -- fail high: the result is a lower bound on the true value
        intro hbr
        have h1 := hFH' hbr
        rcases le_max_iff.mp h1 with h | h
        · exact le_trans h (le_max_left _ _)
        · have hb1 : beta ≤ qx (cf m alpha beta) := le_trans hbr (qx_le_qx.mpr h)
          exact le_trans (le_trans h (hc.2.1 hb1)) (le_max_right _ _)
      · -- exact inside the window
        intro har hrb
        by_cases ha1r : max alpha (qx (max s (cf m alpha beta)))
            < qx (loopNCmax cf ms (max s (cf m alpha beta))
              (max alpha (qx (max s (cf m alpha beta)))) beta)
        · have hreq := hEX' ha1r hrb
          rcases le_total (cf m alpha beta) ((ms.map v).foldl max s) with hKr | hKr
          · have hrK : loopNCmax cf ms (max s (cf m alpha beta))
                (max alpha (qx (max s (cf m alpha beta)))) beta
                = (ms.map v).foldl max s := by rw [hreq, max_eq_left hKr]
            have hvmK : v m ≤ (ms.map v).foldl max s := by
              by_contra hlt
              push_neg at hlt
              by_cases hral : qx (cf m alpha beta) ≤ alpha
              · exact absurd (le_trans (hc.1 hral) hKr) (not_le.mpr hlt)
              · by_cases hrbe : beta ≤ qx (cf m alpha beta)
                · exact hcut (le_trans (le_trans hrbe
                    (qx_le_qx.mpr (le_max_right s _))) (le_max_right alpha _))
                · have heq := hc.2.2 (not_le.mp hral) (not_le.mp hrbe)
                  rw [heq] at hKr
                  exact absurd hKr (not_le.mpr hlt)
            rw [hrK, max_eq_left hvmK]
          · have hrr : loopNCmax cf ms (max s (cf m alpha beta))
                (max alpha (qx (max s (cf m alpha beta)))) beta
                = cf m alpha beta := by rw [hreq, max_eq_right hKr]
            rw [hrr] at har hrb
            have heq := hc.2.2 har hrb
            rw [hrr, ← heq, max_eq_right hKr]
        · push_neg at ha1r
          have hrv1 : loopNCmax cf ms (max s (cf m alpha beta))
              (max alpha (qx (max s (cf m alpha beta)))) beta
              ≤ max s (cf m alpha beta) := by
            rcases le_max_iff.mp ha1r with h | h
            · exact absurd h (not_le.mpr har)
            · exact qx_le_qx.mp h
          have hrv : loopNCmax cf ms (max s (cf m alpha beta))
              (max alpha (qx (max s (cf m alpha beta)))) beta
              = max s (cf m alpha beta) := le_antisymm hrv1 hA'
          have hWr' := hFL' ha1r
          have hKle : (ms.map v).foldl max s
              ≤ loopNCmax cf ms (max s (cf m alpha beta))
                (max alpha (qx (max s (cf m alpha beta)))) beta :=
            le_trans (le_max_left _ _) hWr'
          have hr₁le : cf m alpha beta
              ≤ loopNCmax cf ms (max s (cf m alpha beta))
                (max alpha (qx (max s (cf m alpha beta)))) beta :=
            le_trans (le_max_right _ _) hWr'
          rcases max_choice s (cf m alpha beta) with hv1 | hv1
          · have hrs : loopNCmax cf ms (max s (cf m alpha beta))
                (max alpha (qx (max s (cf m alpha beta)))) beta = s := by
              rw [hrv, hv1]
            have hvm : v m ≤ loopNCmax cf ms (max s (cf m alpha beta))
                (max alpha (qx (max s (cf m alpha beta)))) beta := by
              by_cases hral : qx (cf m alpha beta) ≤ alpha
              · exact le_trans (hc.1 hral) hr₁le
              · by_cases hrbe : beta ≤ qx (cf m alpha beta)
                · exact absurd (le_trans (le_trans hrbe
                    (qx_le_qx.mpr (le_max_right s _))) (le_max_right alpha _)) hcut
                · have heq := hc.2.2 (not_le.mp hral) (not_le.mp hrbe)
                  rw [← heq]
                  exact hr₁le
            have hrW : loopNCmax cf ms (max s (cf m alpha beta))
                (max alpha (qx (max s (cf m alpha beta)))) beta
                ≤ max ((ms.map v).foldl max s) (v m) := by
              rw [hrs]
              exact le_trans (le_foldl_max _ s) (le_max_left _ _)
            exact le_antisymm hrW (max_le hKle hvm)
          · have hrr : loopNCmax cf ms (max s (cf m alpha beta))
                (max alpha (qx (max s (cf m alpha beta)))) beta
                = cf m alpha beta := by rw [hrv, hv1]
            rw [hrr] at har hrb hKle
            have heq := hc.2.2 har hrb
            rw [hrr, ← heq, max_eq_right hKle]

theorem loopNCmin_KM (cf : Nat → XS → XS → ℚ) (v : Nat → ℚ) :
    ∀ (ms : List Nat),
      (∀ m ∈ ms, ∀ (a b : XS), a < b → nodeKM (cf m a b) (v m) a b) →
      ∀ (s : ℚ) (alpha beta : XS), alpha < beta →
        loopNCmin cf ms s alpha beta ≤ s ∧
        nodeKM (loopNCmin cf ms s alpha beta) ((ms.map v).foldl min s) alpha beta := by
  intro ms
  induction ms with
  | nil =>
    intro _ s alpha beta _
    exact ⟨le_refl s, fun _ => le_refl s, fun _ => le_refl s, fun _ _ => rfl⟩
  | cons m ms ih =>
    intro hch s alpha beta hab
    have hc := hch m (List.mem_cons_self m ms) alpha beta hab
    have hW : ((m :: ms).map v).foldl min s
        = min ((ms.map v).foldl min s) (v m) := by
      rw [show ((m :: ms).map v).foldl min s
        = (ms.map v).foldl min (min s (v m)) from rfl, foldl_min_pull]
    have hunfold : loopNCmin cf (m :: ms) s alpha beta =
        if min beta (qx (min s (cf m alpha beta))) ≤ alpha
        then min s (cf m alpha beta)
        else loopNCmin cf ms (min s (cf m alpha beta))
          alpha (min beta (qx (min s (cf m alpha beta)))) := rfl
    rw [hunfold, hW]
    by_cases hcut : min beta (qx (min s (cf m alpha beta))) ≤ alpha
    · rw [if_pos hcut]
      have hbv : qx (min s (cf m alpha beta)) ≤ alpha := by
        rcases min_le_iff.mp hcut with h | h
        · exact absurd h (not_le.mpr hab)
        · exact h
      refine ⟨min_le_left _ _, ?_, ?_, ?_⟩
      · intro _
        rcases le_total s (cf m alpha beta) with h | h
        · rw [min_eq_left h]
          exact le_trans (min_le_left _ _) (foldl_min_le _ s)
        · rw [min_eq_right h]
          rw [min_eq_right h] at hbv
          exact le_trans (min_le_right _ _) (hc.1 hbv)
      · intro hbr
        exact absurd (le_trans hbr hbv) (not_le.mpr hab)
      · intro har _
        exact absurd (lt_of_lt_of_le har hbv) (lt_irrefl alpha)
    · rw [if_neg hcut]
      have ha1b : alpha < min beta (qx (min s (cf m alpha beta))) := not_le.mp hcut
      have hrec := ih (fun m' hm' a b h => hch m' (List.mem_cons_of_mem m hm') a b h)
        (min s (cf m alpha beta)) alpha (min beta (qx (min s (cf m alpha beta)))) ha1b
      obtain ⟨hA', hKM'⟩ := hrec
      rw [foldl_min_pull] at hKM'
      obtain ⟨hFL', hFH', hEX'⟩ := hKM'
      have hsr : loopNCmin cf ms (min s (cf m alpha beta))
          alpha (min beta (qx (min s (cf m alpha beta)))) ≤ s :=
        le_trans hA' (min_le_left _ _)
      have hr1r : loopNCmin cf ms (min s (cf m alpha beta))
          alpha (min beta (qx (min s (cf m alpha beta)))) ≤ cf m alpha beta :=
        le_trans hA' (min_le_right _ _)
      refine ⟨hsr, ?_, ?_, ?_⟩
      · -- fail low: the result is an upper bound on the true value
        intro hra
        have h1 := hFL' hra
        rcases min_le_iff.mp h1 with h | h
        · exact le_trans (min_le_left _ _) h
        · have ha1 : qx (cf m alpha beta) ≤ alpha := le_trans (qx_le_qx.mpr h) hra
          exact le_trans (min_le_right _ _) (le_trans (hc.1 ha1) h)
      · -- fail high: the result is a lower bound on the true value
        intro hbr
        have hbr1 : min beta (qx (min s (cf m alpha beta)))
            ≤ qx (loopNCmin cf ms (min s (cf m alpha beta))
              alpha (min beta (qx (min s (cf m alpha beta))))) :=
          le_trans (min_le_left _ _) hbr
        have hrW := hFH' hbr1
        have hqr₁ : beta ≤ qx (cf m alpha beta) :=
          le_trans hbr (qx_le_qx.mpr hr1r)
        have hvm : loopNCmin cf ms (min s (cf m alpha beta))
            alpha (min beta (qx (min s (cf m alpha beta)))) ≤ v m :=
          le_trans hr1r (hc.2.1 hqr₁)
        exact le_min (le_trans hrW (min_le_left _ _)) hvm
      · -- exact inside the window
        intro har hrb
        by_cases hb1r : qx (loopNCmin cf ms (min s (cf m alpha beta))
            alpha (min beta (qx (min s (cf m alpha beta)))))
            < min beta (qx (min s (cf m alpha beta)))
        · have hreq := hEX' har hb1r
          rcases le_total ((ms.map v).foldl min s) (cf m alpha beta) with hKr | hKr
          · have hrK : loopNCmin cf ms (min s (cf m alpha beta))
                alpha (min beta (qx (min s (cf m alpha beta))))
                = (ms.map v).foldl min s := by rw [hreq, min_eq_left hKr]
            have hvmK : (ms.map v).foldl min s ≤ v m := by
              by_contra hlt
              push_neg at hlt
              by_cases hrbe : beta ≤ qx (cf m alpha beta)
              · exact absurd (le_trans hKr (hc.2.1 hrbe)) (not_le.mpr hlt)
              · by_cases hral : qx (cf m alpha beta) ≤ alpha
                · exact hcut (le_trans (min_le_right beta _)
                    (le_trans (qx_le_qx.mpr (min_le_right s _)) hral))
                · have heq := hc.2.2 (not_le.mp hral) (not_le.mp hrbe)
                  rw [← heq] at hlt
                  exact absurd hKr (not_le.mpr hlt)
            rw [hrK, min_eq_left hvmK]
          · have hrr : loopNCmin cf ms (min s (cf m alpha beta))
                alpha (min beta (qx (min s (cf m alpha beta))))
                = cf m alpha beta := by rw [hreq, min_eq_right hKr]
            rw [hrr] at har hrb
            have heq := hc.2.2 har hrb
            rw [hrr, ← heq, min_eq_right hKr]
        · push_neg at hb1r
          have hrv1 : min s (cf m alpha beta)
              ≤ loopNCmin cf ms (min s (cf m alpha beta))
                alpha (min beta (qx (min s (cf m alpha beta)))) := by
            rcases min_le_iff.mp hb1r with h | h
            · exact absurd h (not_le.mpr hrb)
            · exact qx_le_qx.mp h
          have hrv : loopNCmin cf ms (min s (cf m alpha beta))
              alpha (min beta (qx (min s (cf m alpha beta))))
              = min s (cf m alpha beta) := le_antisymm hA' hrv1
          have hWr' := hFH' hb1r
          have hKle : loopNCmin cf ms (min s (cf m alpha beta))
              alpha (min beta (qx (min s (cf m alpha beta))))
              ≤ (ms.map v).foldl min s :=
            le_trans hWr' (min_le_left _ _)
          have hr₁le : loopNCmin cf ms (min s (cf m alpha beta))
              alpha (min beta (qx (min s (cf m alpha beta))))
              ≤ cf m alpha beta :=
            le_trans hWr' (min_le_right _ _)
          rcases min_choice s (cf m alpha beta) with hv1 | hv1
          · have hrs : loopNCmin cf ms (min s (cf m alpha beta))
                alpha (min beta (qx (min s (cf m alpha beta)))) = s := by
              rw [hrv, hv1]
            have hvm : loopNCmin cf ms (min s (cf m alpha beta))
                alpha (min beta (qx (min s (cf m alpha beta)))) ≤ v m := by
              by_cases hrbe : beta ≤ qx (cf m alpha beta)
              · exact le_trans hr₁le (hc.2.1 hrbe)
              · by_cases hral : qx (cf m alpha beta) ≤ alpha
                · exact absurd (le_trans (min_le_right beta _)
                    (le_trans (qx_le_qx.mpr (min_le_right s _)) hral)) hcut
                · have heq := hc.2.2 (not_le.mp hral) (not_le.mp hrbe)
                  rw [← heq]
                  exact hr₁le
            have hrW : min ((ms.map v).foldl min s) (v m)
                ≤ loopNCmin cf ms (min s (cf m alpha beta))
                  alpha (min beta (qx (min s (cf m alpha beta)))) := by
              rw [hrs]
              exact le_trans (min_le_left _ _) (foldl_min_le _ s)
            exact le_antisymm (le_min hKle hvm) hrW
          · have hrr : loopNCmin cf ms (min s (cf m alpha beta))
                alpha (min beta (qx (min s (cf m alpha beta))))
                = cf m alpha beta := by rw [hrv, hv1]
            rw [hrr] at har hrb hKle
            have heq := hc.2.2 har hrb
            rw [hrr, ← heq, min_eq_right hKle]

theorem engineNC_KM (g : Game) :
    ∀ (d : Nat) (p : Nat) (alpha beta : XS), alpha < beta →
      evalsInRange g (reach g d p) → totalOn g (reach g d p) →
      nodeKM (engineNC g d p alpha beta) (minimax g d p) alpha beta := by
  intro d
  induction d with
  | zero =>
    intro p alpha beta _ _ _
    exact ⟨fun _ => le_refl _, fun _ => le_refl _, fun _ _ => rfl⟩
  | succ d ih =>
    intro p alpha beta hab hr ht
    rw [engineNC_succ, minimax_succ]
    cases hgo : g.isGameOver p with
    | true =>
      simp only [hgo, if_true]
      exact ⟨fun _ => le_refl _, fun _ => le_refl _, fun _ _ => rfl⟩
    | false =>
      have hmoves := ht p (mem_reach_self g (d + 1) p) hgo
      obtain ⟨m, ms, hms⟩ := List.exists_cons_of_ne_nil hmoves
      simp only [hgo, Bool.false_eq_true, if_false, hms]
      have hch : ∀ m' ∈ orderMoves g p, ∀ (a b : XS), a < b →
          nodeKM (engineNC g d (g.applyMove p m') a b)
            (minimax g d (g.applyMove p m')) a b := by
        intro m' hm' a b hab'
        have hm'' : m' ∈ g.legalMoves p := (orderMoves_perm g p).mem_iff.mp hm'
        exact ih (g.applyMove p m') a b hab'
          (fun q hq => hr q (reach_child_subset g d hgo hm'' hq))
          (fun q hq hq2 => ht q (reach_child_subset g d hgo hm'' hq) hq2)
      have hmm : m ∈ g.legalMoves p := by
        rw [hms]; exact List.mem_cons_self _ _
      have hperm : ((orderMoves g p).map
            (fun m' => minimax g d (g.applyMove p m'))).Perm
          ((g.legalMoves p).map (fun m' => minimax g d (g.applyMove p m'))) :=
        (orderMoves_perm g p).map _
      by_cases hturn : g.turn p = g.color
      · simp only [hturn, if_pos rfl, if_true, eq_self_iff_true]
        have hKM := loopNCmax_KM
          (fun m' a b => engineNC g d (g.applyMove p m') a b)
          (fun m' => minimax g d (g.applyMove p m'))
          (orderMoves g p) hch searchMaxInit alpha beta hab
        have hWW : ((orderMoves g p).map
              (fun m' => minimax g d (g.applyMove p m'))).foldl max searchMaxInit
            = (ms.map (fun m2 => minimax g d (g.applyMove p m2))).foldl max
              (minimax g d (g.applyMove p m)) := by
          rw [foldl_max_perm hperm, hms]
          rw [show ((m :: ms).map
              (fun m' => minimax g d (g.applyMove p m'))).foldl max searchMaxInit
            = (ms.map (fun m' => minimax g d (g.applyMove p m'))).foldl max
              (max searchMaxInit (minimax g d (g.applyMove p m))) from rfl]
          have hrg := (minimax_range g d (g.applyMove p m)
            (fun q hq => hr q (reach_child_subset g d hgo hmm hq))).1
          rw [max_eq_right (le_of_lt hrg)]
        rw [← hWW]
        exact hKM.2
      · simp only [hturn, if_false]
        have hKM := loopNCmin_KM
          (fun m' a b => engineNC g d (g.applyMove p m') a b)
          (fun m' => minimax g d (g.applyMove p m'))
          (orderMoves g p) hch searchMinInit alpha beta hab
        have hWW : ((orderMoves g p).map
              (fun m' => minimax g d (g.applyMove p m'))).foldl min searchMinInit
            = (ms.map (fun m2 => minimax g d (g.applyMove p m2))).foldl min
              (minimax g d (g.applyMove p m)) := by
          rw [foldl_min_perm hperm, hms]
          rw [show ((m :: ms).map
              (fun m' => minimax g d (g.applyMove p m'))).foldl min searchMinInit
            = (ms.map (fun m' => minimax g d (g.applyMove p m'))).foldl min
              (min searchMinInit (minimax g d (g.applyMove p m))) from rfl]
          have hrg := (minimax_range g d (g.applyMove p m)
            (fun q hq => hr q (reach_child_subset g d hgo hmm hq))).2
          rw [min_eq_right (le_of_lt hrg)]
        rw [← hWW]
        exact hKM.2

/-- C1 (amended): on game trees in which no zobrist hash recurs among the
positions reachable within the search depth (no transpositions, move
repetitions, or hash collisions), in which every evaluation lies strictly
between the loop sentinels `-99999` and `9999999999`, and in which every
non-game-over position has a legal move, the Search Core run with a full
window and an initially empty transposition table returns exactly the
unpruned, uncached minimax value of the same tree: under these hypotheses
pruning and caching change only the work done, not the value. -/
theorem alphabeta_eq_minimax_of_distinct_hashes :
    ∀ (g : Game) (d : Nat) (p : Nat) (hs : List Nat),
      (reachHashes g d p).Nodup →
      evalsInRange g (reach g d p) →
      totalOn g (reach g d p) →
      (engine g d ⟨p, hs⟩ ⊥ ⊤ []).1 = minimax g d p := by
  intro g d p hs hnd hr ht
  have hdisj : List.Disjoint (reachHashes g d p) (([] : TT).map Prod.fst) :=
    fun a _ hb => absurd hb (List.not_mem_nil a)
  have h1 := (engine_eq_engineNC g d p hs ⊥ ⊤ [] hnd hdisj).1
  have hab : (⊥ : XS) < ⊤ := lt_trans (bot_lt_qx 0) (qx_lt_top 0)
  have hKM := engineNC_KM g d p ⊥ ⊤ hab hr ht
  rw [h1]
  exact hKM.2.2 (bot_lt_qx _) (qx_lt_top _)

theorem cgW_range : evalsInRange cgW (reach cgW 2 0) := by
  intro q hq
  rw [show reach cgW 2 0 = [0, 1, 3, 2, 4] from rfl] at hq
  fin_cases hq <;> constructor <;>
    norm_num [evalFunct, materialEvaluation, materialEvaluationFor, PIECE_TYPES,
      mateOpportunity, opening_book, center_control, centerSquares, cgW,
      pieceValue, searchMaxInit, searchMinInit]
  all_goals decide

theorem cgW_total : totalOn cgW (reach cgW 2 0) := by
  intro q hq _
  rw [show reach cgW 2 0 = [0, 1, 3, 2, 4] from rfl] at hq
  fin_cases hq <;> decide

/-- C1 (amended) witness: the transposition-free game `cgW` at depth 2. -/
theorem alphabeta_eq_minimax_of_distinct_hashes_witness :
    (reachHashes cgW 2 0).Nodup ∧ evalsInRange cgW (reach cgW 2 0) ∧
    totalOn cgW (reach cgW 2 0) ∧
    (engine cgW 2 ⟨0, []⟩ ⊥ ⊤ []).1 = minimax cgW 2 0 :=
  ⟨by decide, cgW_range, cgW_total,
    alphabeta_eq_minimax_of_distinct_hashes cgW 2 0 [] (by decide) cgW_range
      cgW_total⟩
